import Mathlib

/-!
Huffman byte-stream codec (9nut/huffman): embedding and verified properties

A shallow embedding of `hufftree.go`, `pq.go`, `encoder.go` and `decoder.go`.

* Go `byte` is `Fin 256`; Go `int` weights are `Nat` (a weight is a byte count or a
  rank, and a sum of them; wrap-around would need an input of 2^63 bytes).
* A Go function returning `(value, error)` returns a pair / `Option GoError`;
  a function that may panic returns `Run`.
* The bit transport `go-bitstream` and `container/heap` are libraries outside the
  repository; they are modelled at their interface.
-/

namespace Huffman

/-- A Go `byte`. -/
abbrev Byte := Fin 256

/-- Go `error` values that the package returns or propagates. -/
inductive GoError where
  /-- The sentinel `io.EOF`, reported by the bit source when no bit is left. -/
  | EOF
  /-- The value `errors.New("Internal error saving dictionary")`. -/
  | internalSave
  /-- Any other error value that the input reader returns from `Read` or `Seek`. -/
  | other
  deriving DecidableEq, Repr

/-- Go run-time panics reachable from the package. -/
inductive GoPanic where
  /-- An index or slice bound out of range. -/
  | indexOutOfRange
  /-- The explicit `panic("Huffman Tree")` of the two encoder constructors. -/
  | huffmanTree
  /-- The explicit panic of `Write` for a byte without a code. -/
  | nonExistentCode (v : Byte)
  /-- A failed type assertion without the `ok` form, such as `root.(*HTree)` in `savedict`. -/
  | interfaceConversion
  /-- The call `panic(err)` of `NewHuffmanEncoder` on an error of the input reader. -/
  | error (e : GoError)
  deriving DecidableEq, Repr

/-- Result of running code that may panic; `outOfFuel` is an artefact of the
embedding (a loop was cut off) and never stands for a result of the program. -/
inductive Run (α : Type) where
  | done (a : α)
  | panic (p : GoPanic)
  | outOfFuel
  deriving DecidableEq, Repr

/-- Sequencing of possibly panicking computations. -/
def Run.bind {α β : Type} : Run α → (α → Run β) → Run β
  | .done a, f => f a
  | .panic p, _ => .panic p
  | .outOfFuel, _ => .outOfFuel

/-! ## hufftree.go: nodes -/

/-- The interface `Item` with its two implementations `*HNode` (a leaf holding a
symbol) and `*HTree` (a binary node). -/
inductive Item where
  | HNode (freq : Nat) (value : Byte)
  | HTree (freq : Nat) (left right : Item)
  deriving DecidableEq, Repr

/-- Methods `(*HNode).Freq` and `(*HTree).Freq`. -/
def Item.Freq : Item → Nat
  | .HNode f _ => f
  | .HTree f _ _ => f

/-- Constructor `NewHNode(val, frq)`. -/
def NewHNode (val : Byte) (frq : Nat) : Item := .HNode frq val

/-- Constructor `NewHTree(ll, rr)`: the weight is the sum of the two weights. -/
def NewHTree (ll rr : Item) : Item := .HTree (ll.Freq + rr.Freq) ll rr

/-- The struct `Huffcode`: the code of a symbol is the `nbits` lowest bits of `hcode`. -/
structure Huffcode where
  freq : Nat
  hcode : Nat
  nbits : Nat
  deriving DecidableEq, Repr

/-- The Go type `map[byte]Huffcode`. -/
abbrev Dict := Byte → Option Huffcode

/-- The empty map `make(map[byte]Huffcode)`. -/
def Dict.empty : Dict := fun _ => none

/-! ## Bit strings -/

/-- Value of a bit string read as a binary number, most significant bit first. -/
def bitsToNat (code : List Bool) : Nat :=
  code.foldl (fun acc b => 2 * acc + (if b then 1 else 0)) 0

/-- The `n` lowest bits of `u`, most significant of them first. -/
def natBits : Nat → Nat → List Bool
  | 0, _ => []
  | n + 1, u => (u / 2 ^ n % 2 == 1) :: natBits n u

/-- Call `strconv.ParseInt(code, 2, 32)` on a string of the characters `0` and `1`
(`false` and `true`): a syntax error on the empty string, a range error when the
value does not fit a signed 32-bit integer; `none` is `err != nil`. -/
def ParseInt (code : List Bool) : Option Nat :=
  if code = [] then none
  else if bitsToNat code < 2 ^ 31 then some (bitsToNat code)
  else none

/-! ## Bit transport -/

/-- Modelled from the spec: the bit sink of the external package `go-bitstream`
(section 6, `writeBit`, `writeBits`, `flush`), which is not part of the repository.
The state is the sequence of bits written so far, in order; the sink is an in-memory
buffer, so no write returns an error. -/
structure BitWriter where
  bits : List Bool
  deriving DecidableEq, Repr

/-- Modelled from the spec: `bs.NewWriter(wc)` on an empty buffer. -/
def NewWriter : BitWriter := ⟨[]⟩

/-- Modelled from the spec: `writeBit(0|1)`. -/
def BitWriter.WriteBit (bw : BitWriter) (b : Bool) : BitWriter × Option GoError :=
  (⟨bw.bits ++ [b]⟩, none)

/-- Modelled from the spec: `writeBits(value, n)`, the `n` lowest bits of `value`,
most significant first. -/
def BitWriter.WriteBits (bw : BitWriter) (u : Nat) (nbits : Nat) :
    BitWriter × Option GoError :=
  (⟨bw.bits ++ natBits nbits u⟩, none)

/-- Modelled from the spec: `WriteByte`, the 8 bits of a byte, most significant first. -/
def BitWriter.WriteByte (bw : BitWriter) (v : Byte) : BitWriter × Option GoError :=
  (⟨bw.bits ++ natBits 8 v.val⟩, none)

/-- Modelled from the spec: `flush(padBit)` completes a partially filled final byte
with `padBit`; nothing is added when the bit count is a multiple of 8. -/
def BitWriter.Flush (bw : BitWriter) (bit : Bool) : BitWriter × Option GoError :=
  (⟨bw.bits ++ List.replicate ((8 - bw.bits.length % 8) % 8) bit⟩, none)

/-- The bits that have reached the underlying byte buffer: the complete bytes. -/
def BitWriter.output (bw : BitWriter) : List Bool :=
  bw.bits.take (8 * (bw.bits.length / 8))

/-- Modelled from the spec: the bit source of `go-bitstream` (section 6, `readBit`,
`readBits`): the bits not read yet. -/
abbrev BitReader := List Bool

/-- Modelled from the spec: `readBit() -> {0,1} | EOF`. -/
def ReadBit : BitReader → BitReader × Except GoError Bool
  | [] => ([], .error .EOF)
  | b :: br => (br, .ok b)

/-- Modelled from the spec: `readBits(8)`, most significant bit read first; fails
with the end-of-data error when fewer than 8 bits are left. -/
def ReadBits8 : BitReader → BitReader × Except GoError Nat
  | b7 :: b6 :: b5 :: b4 :: b3 :: b2 :: b1 :: b0 :: br =>
      (br, .ok (bitsToNat [b7, b6, b5, b4, b3, b2, b1, b0]))
  | br => (br, .error .EOF)

/-! ## hufftree.go: code table and header -/

/-- Function `filldict(r, code, lkup)`: the code string grows by `0` to the left and by
`1` to the right; a leaf is entered only when `ParseInt` succeeds. -/
def filldict : Item → List Bool → Dict → Dict
  | .HTree _ l r, code, lkup =>
      filldict r (code ++ [true]) (filldict l (code ++ [false]) lkup)
  | .HNode f v, code, lkup =>
      match ParseInt code with
      | some res => Function.update lkup v (some ⟨f, res, code.length⟩)
      | none => lkup

/-- Function `rsavedict(bw, r)`: recursive post-order writer. The errors of the two
recursive calls and of the `WriteBit(bs.One)` of a leaf are dropped, as in the source. -/
def rsavedict (bw : BitWriter) : Item → BitWriter × Option GoError
  | .HTree _ l r =>
      let bw1 := (rsavedict bw l).1
      let bw2 := (rsavedict bw1 r).1
      bw2.WriteBit false
  | .HNode _ v =>
      let bw1 := (bw.WriteBit true).1
      bw1.WriteByte v

/-- Function `rloaddict(br, lifo)`: recursive loader. Returns the reader left behind
and the pair `(tree, err)`; `lifo[0]` on an empty slice panics. -/
def rloaddict : BitReader → List Item → Run (BitReader × Except GoError Item)
  | [], _ => .done ([], .error .EOF)
  | true :: b7 :: b6 :: b5 :: b4 :: b3 :: b2 :: b1 :: b0 :: br, lifo =>
      rloaddict br
        (lifo ++ [.HNode 0 (Fin.ofNat (bitsToNat [b7, b6, b5, b4, b3, b2, b1, b0]))])
  | true :: br, _ => .done (br, .error .EOF)
  | false :: br, lifo =>
      if lifo.length > 1 then
        let rr := lifo.getD (lifo.length - 1) (.HNode 0 0)
        let ll := lifo.getD (lifo.length - 2) (.HNode 0 0)
        rloaddict br (lifo.take (lifo.length - 2) ++ [.HTree 0 ll rr])
      else
        match lifo with
        | [] => .panic .indexOutOfRange
        | x :: _ => .done (br, .ok x)

/-! ## pq.go and container/heap -/

/-- The type `PriorityQueue`, a slice of items. -/
abbrev PriorityQueue := List Item

/-- Element `pq[i]` for an index in range. -/
def PriorityQueue.at (pq : PriorityQueue) (i : Nat) : Item := pq.getD i (.HNode 0 0)

/-- Method `PriorityQueue.Less`: greater weight first. -/
def PriorityQueue.Less (pq : PriorityQueue) (i j : Nat) : Bool :=
  decide ((pq.at i).Freq > (pq.at j).Freq)

/-- Method `PriorityQueue.Swap`. -/
def PriorityQueue.Swap (pq : PriorityQueue) (i j : Nat) : PriorityQueue :=
  (pq.set i (pq.at j)).set j (pq.at i)

/-- Method `(*PriorityQueue).Push`: append at the end of the slice. -/
def PriorityQueue.Push (pq : PriorityQueue) (x : Item) : PriorityQueue := pq ++ [x]

/-- Method `(*PriorityQueue).Pop`: remove and return the LAST element of the slice;
on an empty slice the index `n-1` is out of range. -/
def PriorityQueue.Pop (pq : PriorityQueue) : Run (Item × PriorityQueue) :=
  match pq.getLast? with
  | none => .panic .indexOutOfRange
  | some item => .done (item, pq.dropLast)

/-- Modelled from the spec: `up(h, j)` of Go's `container/heap` (section 4.1, a binary
heap ordered by `Less`): swap with the parent `(j-1)/2` while `Less(j, parent)`. The
first argument bounds the iterations; `j + 1` is always enough. -/
def heapUp : Nat → PriorityQueue → Nat → PriorityQueue
  | 0, h, _ => h
  | fuel + 1, h, j =>
      let i := (j - 1) / 2
      if i = j ∨ ¬ h.Less j i then h else heapUp fuel (h.Swap i j) i

/-- Modelled from the spec: `down(h, i, n)` of Go's `container/heap`: swap with the
child that is first by `Less` while that child is `Less` than the node. The first
argument bounds the iterations; `n` is always enough. -/
def heapDown : Nat → PriorityQueue → Nat → Nat → PriorityQueue
  | 0, h, _, _ => h
  | fuel + 1, h, i, n =>
      let j1 := 2 * i + 1
      if j1 ≥ n then h
      else
        let j := if j1 + 1 < n ∧ h.Less (j1 + 1) j1 then j1 + 1 else j1
        if ¬ h.Less j i then h else heapDown fuel (h.Swap i j) j n

/-- Modelled from the spec: `heap.Init(&pQ)`: `down` from index `n/2 - 1` to `0`. -/
def heapInit (h : PriorityQueue) : PriorityQueue :=
  (List.range (h.length / 2)).reverse.foldl (fun q i => heapDown h.length q i h.length) h

/-- Modelled from the spec: `heap.Push(&pQ, x)`: the method `Push`, then `up` from
the last index. -/
def heapPush (h : PriorityQueue) (x : Item) : PriorityQueue :=
  heapUp (h.length + 1) (h.Push x) ((h.Push x).length - 1)

/-! ## encoder.go -/

/-- The struct `HuffmanEncoder`. -/
structure HuffmanEncoder where
  root : Item
  dict : Dict
  bw : BitWriter

/-- The merge loop shared by both constructors: while `pQ.Len() > 1`, pop `l`, pop `r`
(method `Pop`, not `heap.Pop`), and `heap.Push` the node `NewHTree(l, r)`. Every
iteration shortens the queue by one, so a bound equal to its length is enough. -/
def mergeLoop : Nat → PriorityQueue → Run PriorityQueue
  | 0, pQ => if pQ.length > 1 then .outOfFuel else .done pQ
  | fuel + 1, pQ =>
      if pQ.length > 1 then
        (pQ.Pop).bind fun zero =>
        (zero.2.Pop).bind fun one =>
        mergeLoop fuel (heapPush one.2 (NewHTree zero.1 one.1))
      else .done pQ

/-- The part of both constructors after the queue is filled: `heap.Init`, the merge
loop, the final `Pop`, the type assertion to `*HTree` (panic `"Huffman Tree"` when it
fails), `filldict` and `bs.NewWriter`. -/
def buildEncoder (pQ : PriorityQueue) : Run HuffmanEncoder :=
  (mergeLoop pQ.length (heapInit pQ)).bind fun q =>
  (q.Pop).bind fun htree =>
  match htree.1 with
  | .HTree f l r =>
      .done { root := .HTree f l r, dict := filldict (.HTree f l r) [] Dict.empty,
              bw := NewWriter }
  | .HNode _ _ => .panic .huffmanTree

/-- What one call `inp.Read(b[:])` on the one-byte buffer `b` returns: the byte it
stored in `b[0]` when it returned `n = 1` (`none` for `n = 0`, which leaves `b[0]` as
it was), and the error. -/
structure ReadResult where
  byte : Option Byte
  err : Option GoError
  deriving DecidableEq, Repr

/-- The argument `inp io.ReadSeeker` as the constructor sees it: the results of the
successive `Read` calls from the start of the input (after the last of them `Read`
returns `0, io.EOF`), and the error of `Seek(0, io.SeekStart)`. -/
structure ReadSeeker where
  reads : List ReadResult
  seek : Option GoError
  deriving DecidableEq, Repr

/-- The reader of the test, `strings.NewReader(s)`: every `Read` returns one byte and a
nil error, `io.EOF` comes alone after the last byte, and `Seek` succeeds. -/
def NewReader (s : List Byte) : ReadSeeker :=
  { reads := s.map fun v => { byte := some v, err := none }, seek := none }

/-- A reader of the same bytes that returns the last byte together with `io.EOF`, as
the contract of `io.Reader` allows. -/
def NewReaderLastEOF (s : List Byte) : ReadSeeker :=
  { reads := (s.dropLast.map fun v => { byte := some v, err := none })
      ++ (s.getLast?.toList.map fun v => { byte := some v, err := some .EOF }),
    seek := none }

/-- The map `freq` of type `map[byte]int`: `none` for a byte that is not a key. -/
abbrev FreqMap := Byte → Option Nat

/-- The counting loop of `NewHuffmanEncoder` on the results of the `Read` calls still to
come, with the current content `b` of the buffer byte `b[0]`. The count returned by
`Read` is discarded: the error is tested first (`io.EOF` breaks out of the loop, any
other error is passed to `panic`), and with a nil error `freq[b[0]]` is created at 0 if
it is not a key and incremented. -/
def countLoop : List ReadResult → Byte → FreqMap → Run FreqMap
  | [], _, freq => .done freq
  | r :: rest, b, freq =>
      let b0 := r.byte.getD b
      match r.err with
      | some .EOF => .done freq
      | some e => .panic (.error e)
      | none =>
          match freq b0 with
          | none => countLoop rest b0 (Function.update freq b0 (some (0 + 1)))
          | some c => countLoop rest b0 (Function.update freq b0 (some (c + 1)))

/-- Constructor `NewHuffmanEncoder(inp, wc)`: the counting loop from a zeroed buffer
byte and an empty map, `inp.Seek(0, io.SeekStart)` (panic on an error), then one leaf
for every key of `freq` with its count. Go leaves the iteration order of `range freq`
unspecified, so the order in which the keys are visited is the argument `order` (a
listing of the keys of `freq`). -/
def NewHuffmanEncoder (inp : ReadSeeker) (order : List Byte) : Run HuffmanEncoder :=
  (countLoop inp.reads 0 (fun _ => none)).bind fun freq =>
  match inp.seek with
  | some err => .panic (.error err)
  | none => buildEncoder (order.map fun v => NewHNode v ((freq v).getD 0))

/-- Constructor `NewHuffmanEncoderWithDict(wc, dict)`: entry `i` gets the weight
`len(dict) - i`. -/
def NewHuffmanEncoderWithDict (dict : List Byte) : Run HuffmanEncoder :=
  buildEncoder (dict.enum.map fun iv => NewHNode iv.2 (dict.length - iv.1))

/-- Method `(*HuffmanEncoder).WriteHeader`: `rsavedict`, then one `0` bit. -/
def HuffmanEncoder.WriteHeader (enc : HuffmanEncoder) : HuffmanEncoder × Option GoError :=
  match rsavedict enc.bw enc.root with
  | (bw1, some err) => ({ enc with bw := bw1 }, some err)
  | (bw1, none) =>
      let r := bw1.WriteBit false
      ({ enc with bw := r.1 }, r.2)

/-- Method `(*HuffmanEncoder).Write`: for every byte of `p` in order, look the code up
(panic when there is none) and `WriteBits(code.hcode, code.nbits)`. The result is the
encoder left behind and either the panic or the pair `(n, err)`. -/
def HuffmanEncoder.Write (enc : HuffmanEncoder) (p : List Byte) :
    HuffmanEncoder × Run (Nat × Option GoError) :=
  go enc p
where
  /-- The `for _, v := range p` loop on the bytes still to be written. -/
  go (e : HuffmanEncoder) : List Byte → HuffmanEncoder × Run (Nat × Option GoError)
    | [] => (e, .done (p.length, none))
    | v :: rest =>
        match e.dict v with
        | none => (e, .panic (.nonExistentCode v))
        | some code =>
            match e.bw.WriteBits code.hcode code.nbits with
            | (bw1, some err) => ({ e with bw := bw1 }, .done (0, some err))
            | (bw1, none) => go { e with bw := bw1 } rest

/-- Method `(*HuffmanEncoder).Flush`: pad the last byte with `0` bits. -/
def HuffmanEncoder.Flush (enc : HuffmanEncoder) : HuffmanEncoder × Option GoError :=
  let r := enc.bw.Flush false
  ({ enc with bw := r.1 }, r.2)

/-! ## decoder.go -/

/-- The struct `HuffmanDecoder`; `root` is `nil` until a header has been read. -/
structure HuffmanDecoder where
  root : Option Item
  br : BitReader

/-- Constructor `NewHuffmanDecoder(rc)` on the bits of the compressed bytes. -/
def NewHuffmanDecoder (rc : List Bool) : HuffmanDecoder := { root := none, br := rc }

/-- Method `(*HuffmanDecoder).ReadHeader`: `rloaddict(dec.br, nil)`; the tree
(`nil` with an error) is stored in `dec.root`. -/
def HuffmanDecoder.ReadHeader (dec : HuffmanDecoder) : Run (HuffmanDecoder × Option GoError) :=
  (rloaddict dec.br []).bind fun r =>
  match r.2 with
  | .ok tree => .done ({ root := some tree, br := r.1 }, none)
  | .error err => .done ({ root := none, br := r.1 }, some err)

/-- The tree walk of `readNextSymbol` from a non-nil node: while the node is an
`*HTree` read a bit (`0` goes left, `1` goes right); at an `*HNode` return its value. -/
def walk : Item → BitReader → BitReader × Except GoError Byte
  | .HNode _ v, br => (br, .ok v)
  | .HTree _ _ _, [] => ([], .error .EOF)
  | .HTree _ l r, b :: br => walk (if b then r else l) br

/-- Function `readNextSymbol(br, root)`; a `nil` root is neither `*HTree` nor `*HNode`
and gives `(0, io.EOF)`. -/
def readNextSymbol (br : BitReader) (root : Option Item) : BitReader × Except GoError Byte :=
  match root with
  | none => (br, .error .EOF)
  | some t => walk t br

/-- The `for i := range buff` loop of `Read` from index `i`, with `k` indices left. -/
def readLoop (root : Option Item) :
    Nat → Nat → BitReader → List Byte → BitReader × List Byte × Nat × Option GoError
  | 0, _, br, buff => (br, buff, buff.length, none)
  | k + 1, i, br, buff =>
      match readNextSymbol br root with
      | (br1, .error err) => (br1, buff, buff.length - i, some err)
      | (br1, .ok b) => readLoop root k (i + 1) br1 (buff.set i b)

/-- Method `(*HuffmanDecoder).Read(buff)`: the decoder left behind, the buffer
contents after the call, and the returned pair `(n, err)`. -/
def HuffmanDecoder.Read (dec : HuffmanDecoder) (buff : List Byte) :
    HuffmanDecoder × List Byte × Nat × Option GoError :=
  let r := readLoop dec.root buff.length 0 dec.br buff
  ({ dec with br := r.1 }, r.2.1, r.2.2.1, r.2.2.2)

/-! ## Notions used to state the properties -/

/-- The code of a table entry as a bit string: the `nbits` lowest bits of `hcode`,
most significant of them first. -/
def Huffcode.bits (c : Huffcode) : List Bool := natBits c.nbits c.hcode

/-- The codeword of a byte in a table (empty when the byte has no entry). -/
def codeword (d : Dict) (v : Byte) : List Bool :=
  match d v with
  | some c => c.bits
  | none => []

/-- The 8 bits of a symbol, most significant first. -/
def symbolBits (s : Byte) : List Bool :=
  [7, 6, 5, 4, 3, 2, 1, 0].map fun i => s.val.testBit i

/-- The header grammar in the words of the specification: a leaf is the bit `1`
followed by the 8 bits of its symbol; an internal node is its left subtree, its right
subtree, then the bit `0`. -/
def post : Item → List Bool
  | .HNode _ s => true :: symbolBits s
  | .HTree _ l r => post l ++ post r ++ [false]

/-- The same tree with every weight set to 0 (weights are not part of the header). -/
def Item.unweighted : Item → Item
  | .HNode _ v => .HNode 0 v
  | .HTree _ l r => .HTree 0 l.unweighted r.unweighted

/-- Two trees have the same shape and the same symbols on corresponding leaves. -/
def Item.sameShape : Item → Item → Bool
  | .HNode _ v, .HNode _ w => decide (v = w)
  | .HTree _ l r, .HTree _ l2 r2 => l.sameShape l2 && r.sameShape r2
  | _, _ => false

/-- The leaves of a tree from left to right: the root-to-leaf path (a left edge is
`false`, a right edge is `true`), the weight and the symbol. -/
def Item.leaves : Item → List (List Bool × Nat × Byte)
  | .HNode f v => [([], f, v)]
  | .HTree _ l r =>
      (l.leaves.map fun e => (false :: e.1, e.2)) ++ (r.leaves.map fun e => (true :: e.1, e.2))

/-- The symbols on the leaves of a tree, from left to right. -/
def Item.symbols (t : Item) : List Byte := t.leaves.map fun e => e.2.2

/-- Decode `i` consecutive symbols by the tree walk of `readNextSymbol`; `none` when
the bits run out before the `i`-th leaf is reached. -/
def decodeN (t : Item) : Nat → BitReader → Option (List Byte × BitReader)
  | 0, br => some ([], br)
  | i + 1, br =>
      match walk t br with
      | (br1, .ok v) => (decodeN t i br1).map fun r => (v :: r.1, r.2)
      | (_, .error _) => none

/-- Call `readNextSymbol` until it returns an error and collect the symbols. The first
argument bounds the number of calls; `none` means the bound was reached. -/
def decodeAll (root : Option Item) : Nat → BitReader → Option (List Byte)
  | 0, _ => none
  | fuel + 1, br =>
      match readNextSymbol br root with
      | (_, .error _) => some []
      | (br1, .ok v) => (decodeAll root fuel br1).map fun out => v :: out

/-- The encoding side of the test: `NewHuffmanEncoder` on the reader `inp`,
`WriteHeader`, one `Write` of the bytes `data` that `io.Copy` takes from the reader,
`Flush`; the result is the bit content of the compressed bytes. -/
def compress (inp : ReadSeeker) (order data : List Byte) : Run (List Bool) :=
  (NewHuffmanEncoder inp order).bind fun enc =>
  match (enc.WriteHeader).1.Write data with
  | (e2, .done _) => .done (e2.Flush).1.bw.output
  | (_, .panic p) => .panic p
  | (_, .outOfFuel) => .outOfFuel

/-- The read loop of a caller such as `io.Copy` with a buffer of fixed size: call
`Read`, keep `buf[0:n]`, stop at the first error. The first argument bounds the number
of calls; `none` means the bound was reached. -/
def readAll : Nat → HuffmanDecoder → List Byte → Option (List Byte)
  | 0, _, _ => none
  | fuel + 1, dec, buf =>
      let r := dec.Read buf
      match r.2.2.2 with
      | some _ => some (r.2.1.take r.2.2.1)
      | none => (readAll fuel r.1 r.2.1).map fun out => r.2.1.take r.2.2.1 ++ out

/-- The decoding side of the test: `NewHuffmanDecoder`, `ReadHeader`, then the read
loop with a zeroed buffer of `size` bytes. -/
def decompress (size : Nat) (rc : List Bool) : Run (Option (List Byte)) :=
  ((NewHuffmanDecoder rc).ReadHeader).bind fun r =>
  match r.2 with
  | none => .done (readAll (rc.length + 1) r.1 (List.replicate size 0))
  | some _ => .done none

/-- Decoding symbol by symbol until the bit source is exhausted: `NewHuffmanDecoder`,
`ReadHeader`, then `readNextSymbol` until it fails. -/
def decodeSymbols (rc : List Bool) : Run (Option (List Byte)) :=
  ((NewHuffmanDecoder rc).ReadHeader).bind fun r =>
  match r.2 with
  | none => .done (decodeAll r.1.root (r.1.br.length + 1) r.1.br)
  | some _ => .done none

/-- The code proper of a table entry: bit pattern and bit length, without the weight. -/
def Huffcode.code (c : Huffcode) : Nat × Nat := (c.hcode, c.nbits)

/-- A right comb of depth `n`: leaves with the symbols `n, ..., 1` hang to the left of a
spine of right edges that ends in the leaf with symbol `0`. -/
def rightComb : Nat → Item
  | 0 => .HNode 1 0
  | n + 1 => .HTree (n + 2) (.HNode 1 (Fin.ofNat (n + 1))) (rightComb n)

/-- The codewords of the bytes of `p`, concatenated in input order with nothing in
between. -/
def codewords (d : Dict) : List Byte → List Bool
  | [] => []
  | v :: p => codeword d v ++ codewords d p

/-- The tree the constructors build for the ranked list `X, Y, Z`. -/
def treeXYZ : Item := .HTree 6 (.HTree 3 (.HNode 1 90) (.HNode 2 89)) (.HNode 3 88)

/-- The tree the constructors build for the input `AAAAB`. -/
def treeAB : Item := .HTree 5 (.HNode 1 66) (.HNode 4 65)

/-- Byte counts of an input with 52 distinct byte values and 504 bytes in all; the
byte value `i` occurs `deepFreq[i]` times. -/
def deepFreq : List Nat :=
  [15, 18, 5, 19, 11, 3, 23, 21, 17, 13, 9, 5, 1, 25, 26, 27, 22, 27, 27, 22, 18, 22, 21, 27,
    27, 27, 1, 1, 1, 1, 1, 1, 1, 1, 1, 1, 1, 1, 1, 1, 1, 1, 1, 1, 1, 1, 1, 1, 1, 1, 1, 1]

/-- An input with the byte counts `deepFreq`: the bytes of value 51 first, then 50,
and so on down to 0. -/
def deepData : List Byte :=
  (deepFreq.enum.reverse.map fun e => List.replicate e.2 (Fin.ofNat e.1 : Byte)).flatten

/-- The iteration order `0, 1, ..., 51` of the frequency map. -/
def deepOrder : List Byte := (List.range 52).map fun i => Fin.ofNat i

/-- Apply a function to the result of a computation. -/
def Run.map {α β : Type} (f : α → β) : Run α → Run β
  | .done a => .done (f a)
  | .panic p => .panic p
  | .outOfFuel => .outOfFuel

/-! ## hufftree.go: the iterative writer and loader -/

/-- The type `symstack`, a slice of items used as a stack whose top is the last element. -/
abbrev symstack := List Item

/-- Method `(*symstack).Push`: append. -/
def symstack.Push (stk : symstack) (v : Item) : symstack := stk ++ [v]

/-- Method `(*symstack).Pop`: remove and return the last element; on an empty slice the
index `len-1` is out of range. -/
def symstack.Pop (stk : symstack) : Run (Item × symstack) :=
  match stk.getLast? with
  | none => .panic .indexOutOfRange
  | some v => .done (v, stk.dropLast)

/-- Method `(*symstack).Len`. -/
def symstack.Len (stk : symstack) : Nat := stk.length

/-- The number of nodes of a tree. -/
def Item.size : Item → Nat
  | .HNode _ _ => 1
  | .HTree _ l r => l.size + r.size + 1

/-- First loop of `savedict`: while `stack1` is not empty, pop a node, push it on
`stack2`, and push the children of an `*HTree` on `stack1`, left then right. The first
argument bounds the iterations: every node is popped once. -/
def savedictFill : Nat → symstack → symstack → Run symstack
  | 0, stack1, stack2 => if stack1.Len > 0 then .outOfFuel else .done stack2
  | fuel + 1, stack1, stack2 =>
      if stack1.Len > 0 then
        (stack1.Pop).bind fun p =>
        match p.1 with
        | .HTree f l r => savedictFill fuel ((p.2.Push l).Push r) (stack2.Push (.HTree f l r))
        | .HNode f v => savedictFill fuel p.2 (stack2.Push (.HNode f v))
      else .done stack2

/-- Second loop of `savedict`: while `stack2` is not empty, pop a node and write `0` for
an `*HTree`, `1` and the symbol for an `*HNode`. The first argument bounds the
iterations: the length of `stack2` is enough. -/
def savedictEmit : Nat → symstack → BitWriter → Run (BitWriter × Option GoError)
  | 0, stack2, bw => if stack2.Len > 0 then .outOfFuel else .done (bw, none)
  | fuel + 1, stack2, bw =>
      if stack2.Len > 0 then
        (stack2.Pop).bind fun p =>
        match p.1 with
        | .HTree _ _ _ => savedictEmit fuel p.2 (bw.WriteBit false).1
        | .HNode _ v =>
            match ((bw.WriteBit true).1).WriteByte v with
            | (bw1, some err) => .done (bw1, some err)
            | (bw1, none) => savedictEmit fuel p.2 bw1
      else .done (bw, none)

/-- Function `savedict(bw, root)`: iterative post-order writer with two stacks. The
assertion `root.(*HTree)` panics for a leaf. (The `fmt.Print` calls write to standard
output, not to the bit sink, and are left out.) -/
def savedict (bw : BitWriter) (root : Item) : Run (BitWriter × Option GoError) :=
  match root with
  | .HNode _ _ => .panic .interfaceConversion
  | .HTree f l r =>
      (savedictFill (Item.HTree f l r).size [.HTree f l r] []).bind fun stack2 =>
      savedictEmit stack2.Len stack2 bw

/-- The `for` loop of `loaddict` on the stack built so far. Returns the reader left
behind and the pair `(tree, err)`; `stack.Pop()` on an empty stack panics. -/
def loaddictLoop : BitReader → symstack → Run (BitReader × Except GoError Item)
  | [], _ => .done ([], .error .EOF)
  | true :: b7 :: b6 :: b5 :: b4 :: b3 :: b2 :: b1 :: b0 :: br, stack =>
      loaddictLoop br
        (stack.Push (.HNode 0 (Fin.ofNat (bitsToNat [b7, b6, b5, b4, b3, b2, b1, b0]))))
  | true :: br, _ => .done (br, .error .EOF)
  | false :: br, stack =>
      if stack.Len < 2 then
        (stack.Pop).bind fun p => .done (br, .ok p.1)
      else
        match stack.Pop with
        | .done (r, s1) =>
            (match s1.Pop with
            | .done (l, s2) => loaddictLoop br (s2.Push (.HTree 0 l r))
            | .panic p => .panic p
            | .outOfFuel => .outOfFuel)
        | .panic p => .panic p
        | .outOfFuel => .outOfFuel

/-- Function `loaddict(br)`: iterative loader, starting from an empty stack. -/
def loaddict (br : BitReader) : Run (BitReader × Except GoError Item) := loaddictLoop br []

/-- The leaf reached from the root by left edges only: its symbol. -/
def Item.leftmost : Item → Byte
  | .HNode _ v => v
  | .HTree _ l _ => l.leftmost

/-- The leaves of a tree from left to right as pairs of weight and symbol. -/
def Item.weights (t : Item) : List (Nat × Byte) := t.leaves.map fun e => e.2

/-- The leaves of all the trees of a queue, as a multiset of pairs of weight and symbol. -/
def forest (pq : PriorityQueue) : Multiset (Nat × Byte) :=
  (pq.map fun t => (t.weights : Multiset (Nat × Byte))).sum

/-- The input `XXXXXYYYZ`, with the frequencies X:5, Y:3, Z:1. -/
def dataXYZ : List Byte := [88, 88, 88, 88, 88, 89, 89, 89, 90]

/-- The input `AAAAB`. -/
def dataAB : List Byte := [65, 65, 65, 65, 66]

/-- The order in which the first loop of `savedict` moves the nodes of a tree to
`stack2`: the node, then its right subtree, then its left subtree. -/
def Item.fillOrder : Item → List Item
  | .HNode f v => [.HNode f v]
  | .HTree f l r => .HTree f l r :: (r.fillOrder ++ l.fillOrder)

/-- The bits the second loop of `savedict` writes for one node. -/
def nodeBits : Item → List Bool
  | .HNode _ v => true :: natBits 8 v.val
  | .HTree _ _ _ => [false]

/-- The sum of the sizes of the trees on a stack. -/
def stackSize : symstack → Nat
  | [] => 0
  | t :: s => t.size + stackSize s

/-! ## Bit strings: basic facts -/

theorem foldl_bits (c : List Bool) (a : Nat) :
    c.foldl (fun acc b => 2 * acc + (if b then 1 else 0)) a
      = a * 2 ^ c.length + bitsToNat c := by
  induction c generalizing a with
  | nil => simp [bitsToNat]
  | cons b c ih =>
      simp only [List.foldl_cons, List.length_cons, bitsToNat]
      rw [ih, ih (2 * 0 + _)]
      ring

theorem bitsToNat_cons (b : Bool) (c : List Bool) :
    bitsToNat (b :: c) = (if b then 1 else 0) * 2 ^ c.length + bitsToNat c := by
  have h := foldl_bits c (2 * 0 + (if b then 1 else 0))
  simp only [bitsToNat, List.foldl_cons] at *
  rw [h]; simp

theorem bitsToNat_lt (c : List Bool) : bitsToNat c < 2 ^ c.length := by
  induction c with
  | nil => simp [bitsToNat]
  | cons b c ih =>
      rw [bitsToNat_cons, List.length_cons, pow_succ]
      split <;> omega

theorem natBits_add_mul (n x k : Nat) : natBits n (x + k * 2 ^ n) = natBits n x := by
  induction n generalizing k with
  | zero => rfl
  | succ m ih =>
      simp only [natBits]
      have h1 : x + k * 2 ^ (m + 1) = x + (2 * k) * 2 ^ m := by ring
      rw [h1, ih (2 * k)]
      have h2 : (x + 2 * k * 2 ^ m) / 2 ^ m % 2 = x / 2 ^ m % 2 := by
        rw [Nat.add_mul_div_right _ _ (by positivity)]
        omega
      rw [h2]

theorem natBits_bitsToNat (c : List Bool) : natBits c.length (bitsToNat c) = c := by
  induction c with
  | nil => rfl
  | cons b c ih =>
      rw [bitsToNat_cons, List.length_cons]
      simp only [natBits]
      have hlt := bitsToNat_lt c
      congr 1
      · rw [Nat.add_comm, Nat.add_mul_div_right _ _ (by positivity), Nat.div_eq_of_lt hlt]
        cases b <;> simp
      · rw [Nat.add_comm, natBits_add_mul, ih]

theorem natBits_length (n u : Nat) : (natBits n u).length = n := by
  induction n with
  | zero => rfl
  | succ m ih => simp [natBits, ih]

theorem bitsToNat_natBits (n u : Nat) : bitsToNat (natBits n u) = u % 2 ^ n := by
  induction n with
  | zero => simp [natBits, bitsToNat, Nat.mod_one]
  | succ m ih =>
      simp only [natBits]
      rw [bitsToNat_cons, ih, natBits_length]
      have h := Nat.mod_pow_succ (x := u) (b := 2) (k := m)
      rw [h]
      have : u / 2 ^ m % 2 = 0 ∨ u / 2 ^ m % 2 = 1 := by omega
      rcases this with h0 | h0 <;> simp [h0]; ring

theorem byte_roundtrip (v : Byte) :
    (Fin.ofNat (bitsToNat (natBits 8 v.val)) : Byte) = v := by
  rw [bitsToNat_natBits]
  apply Fin.ext
  simp [Fin.ofNat]

set_option maxRecDepth 100000 in
theorem natBits_eq_symbolBits : ∀ v : Byte, natBits 8 v.val = symbolBits v := by
  decide

/-! ## Header: writer and loader -/

theorem rsavedict_eq (t : Item) (bw : BitWriter) :
    rsavedict bw t = (⟨bw.bits ++ post t⟩, none) := by
  induction t generalizing bw with
  | HNode f v =>
      simp [rsavedict, post, BitWriter.WriteBit, BitWriter.WriteByte, natBits_eq_symbolBits]
  | HTree f l r ihl ihr =>
      simp [rsavedict, post, ihl, ihr, BitWriter.WriteBit]

theorem WriteHeader_eq (enc : HuffmanEncoder) :
    enc.WriteHeader = ({ enc with bw := ⟨enc.bw.bits ++ post enc.root ++ [false]⟩ }, none) := by
  simp [HuffmanEncoder.WriteHeader, rsavedict_eq, BitWriter.WriteBit]

theorem natBits_eight (u : Nat) :
    ∃ b7 b6 b5 b4 b3 b2 b1 b0, natBits 8 u = [b7, b6, b5, b4, b3, b2, b1, b0] :=
  ⟨_, _, _, _, _, _, _, _, rfl⟩

theorem rloaddict_zero (br : BitReader) (lifo : List Item) :
    rloaddict (false :: br) lifo =
      if lifo.length > 1 then
        rloaddict br (lifo.take (lifo.length - 2) ++
          [.HTree 0 (lifo.getD (lifo.length - 2) (.HNode 0 0))
            (lifo.getD (lifo.length - 1) (.HNode 0 0))])
      else
        match lifo with
        | [] => .panic .indexOutOfRange
        | x :: _ => .done (br, .ok x) := by
  rw [rloaddict.eq_def]

theorem rloaddict_one (b7 b6 b5 b4 b3 b2 b1 b0 : Bool) (br : BitReader) (lifo : List Item) :
    rloaddict (true :: b7 :: b6 :: b5 :: b4 :: b3 :: b2 :: b1 :: b0 :: br) lifo =
      rloaddict br
        (lifo ++ [.HNode 0 (Fin.ofNat (bitsToNat [b7, b6, b5, b4, b3, b2, b1, b0]))]) := by
  rw [rloaddict.eq_def]

theorem lifo_top (lifo : List Item) (a b d : Item) :
    (lifo ++ [a, b]).length > 1 ∧
      (lifo ++ [a, b]).take ((lifo ++ [a, b]).length - 2) = lifo ∧
      (lifo ++ [a, b]).getD ((lifo ++ [a, b]).length - 2) d = a ∧
      (lifo ++ [a, b]).getD ((lifo ++ [a, b]).length - 1) d = b := by
  refine ⟨by simp, by simp [List.take_append], ?_, ?_⟩
  · have h : (lifo ++ [a, b]).length - 2 = lifo.length := by simp
    rw [h, List.getD_eq_getElem?_getD, List.getElem?_append_right (le_refl _)]
    simp
  · have h : (lifo ++ [a, b]).length - 1 = lifo.length + 1 := by simp
    rw [h, List.getD_eq_getElem?_getD, List.getElem?_append_right (by omega)]
    simp

/-- The loader written with pattern matching is the loader of the source written with
the calls `ReadBit` and `ReadBits(8)`. -/
theorem rloaddict_step (br : BitReader) (lifo : List Item) :
    rloaddict br lifo =
      match ReadBit br with
      | (br1, .error e) => .done (br1, .error e)
      | (br1, .ok true) =>
          (match ReadBits8 br1 with
          | (br2, .error e) => .done (br2, .error e)
          | (br2, .ok c) => rloaddict br2 (lifo ++ [.HNode 0 (Fin.ofNat c)]))
      | (br1, .ok false) =>
          if lifo.length > 1 then
            rloaddict br1 (lifo.take (lifo.length - 2) ++
              [.HTree 0 (lifo.getD (lifo.length - 2) (.HNode 0 0))
                (lifo.getD (lifo.length - 1) (.HNode 0 0))])
          else
            match lifo with
            | [] => .panic .indexOutOfRange
            | x :: _ => .done (br1, .ok x) := by
  cases br with
  | nil => rfl
  | cons b br =>
      cases b with
      | false => rw [rloaddict_zero]; rfl
      | true =>
          rcases br with _ | ⟨b7, _ | ⟨b6, _ | ⟨b5, _ | ⟨b4, _ | ⟨b3, _ | ⟨b2, _ | ⟨b1,
            _ | ⟨b0, br⟩⟩⟩⟩⟩⟩⟩⟩ <;> simp [rloaddict, ReadBit, ReadBits8]

/-- The tree walk written with pattern matching is the loop of `readNextSymbol` written
with the call `ReadBit`. -/
theorem walk_step (f : Nat) (l r : Item) (br : BitReader) :
    walk (.HTree f l r) br =
      match ReadBit br with
      | (br1, .error e) => (br1, .error e)
      | (br1, .ok b) => walk (if b then r else l) br1 := by
  cases br <;> rfl

theorem rloaddict_post (t : Item) (rest : List Bool) (lifo : List Item) :
    rloaddict (post t ++ rest) lifo = rloaddict rest (lifo ++ [t.unweighted]) := by
  induction t generalizing rest lifo with
  | HNode f v =>
      obtain ⟨b7, b6, b5, b4, b3, b2, b1, b0, h⟩ := natBits_eight v.val
      have hv := byte_roundtrip v
      rw [h] at hv
      show rloaddict (true :: symbolBits v ++ rest) lifo = _
      rw [← natBits_eq_symbolBits, h]
      simp only [List.cons_append, List.nil_append, rloaddict_one, hv, Item.unweighted]
  | HTree f l r ihl ihr =>
      simp only [post, List.append_assoc, ihl, ihr, List.singleton_append]
      obtain ⟨h1, h2, h3, h4⟩ := lifo_top lifo l.unweighted r.unweighted (.HNode 0 0)
      rw [rloaddict_zero, if_pos h1, h2, h3, h4]
      rfl

theorem sameShape_unweighted (t : Item) : t.sameShape t.unweighted = true := by
  induction t with
  | HNode f v => simp [Item.sameShape, Item.unweighted]
  | HTree f l r ihl ihr => simp [Item.sameShape, Item.unweighted, ihl, ihr]

theorem ReadHeader_post (t : Item) (rest : List Bool) :
    (NewHuffmanDecoder (post t ++ [false] ++ rest)).ReadHeader
      = .done ({ root := some t.unweighted, br := rest }, none) := by
  simp only [HuffmanDecoder.ReadHeader, NewHuffmanDecoder, List.append_assoc, rloaddict_post,
    List.nil_append, List.singleton_append]
  rw [rloaddict_zero]
  simp [Run.bind]

/-! ## Code table and tree walk -/

theorem walk_unweighted (t : Item) (br : BitReader) : walk t.unweighted br = walk t br := by
  induction br generalizing t with
  | nil => cases t <;> simp [walk, Item.unweighted]
  | cons b br ih =>
      cases t with
      | HNode f v => simp [walk, Item.unweighted]
      | HTree f l r =>
          simp only [walk, Item.unweighted]
          cases b <;> simp [ih]

theorem ParseInt_some {code : List Bool} {res : Nat} (h : ParseInt code = some res) :
    code ≠ [] ∧ res = bitsToNat code ∧ bitsToNat code < 2 ^ 31 := by
  unfold ParseInt at h
  split at h
  · simp at h
  · split at h
    · simp at h; exact ⟨by assumption, h.symm, by assumption⟩
    · simp at h

/-- Every entry of a filled table was either there before or is the path of a leaf with
that symbol: the tree walk along the entry's bits ends on it. -/
theorem filldict_sound (t : Item) (code : List Bool) (lkup : Dict) (s : Byte) (c : Huffcode)
    (h : filldict t code lkup s = some c) :
    lkup s = some c ∨
      ∃ p, c.bits = code ++ p ∧ code ++ p ≠ [] ∧ ∀ rest, walk t (p ++ rest) = (rest, .ok s) := by
  induction t generalizing code lkup with
  | HNode f v =>
      simp only [filldict] at h
      cases hp : ParseInt code with
      | none => rw [hp] at h; exact Or.inl h
      | some res =>
          rw [hp] at h
          simp only at h
          obtain ⟨hne, hres, _⟩ := ParseInt_some hp
          by_cases hs : s = v
          · subst hs
            simp only [Function.update_same, Option.some.injEq] at h
            refine Or.inr ⟨[], ?_, by simpa using hne, fun rest => by simp [walk]⟩
            rw [← h, hres]
            simp [Huffcode.bits, natBits_bitsToNat]
          · rw [Function.update_noteq hs] at h
            exact Or.inl h
  | HTree f l r ihl ihr =>
      simp only [filldict] at h
      rcases ihr _ _ h with h1 | ⟨p, hp1, hp2, hp3⟩
      · rcases ihl _ _ h1 with h2 | ⟨p, hp1, hp2, hp3⟩
        · exact Or.inl h2
        · refine Or.inr ⟨false :: p, by simpa using hp1, by simp, fun rest => ?_⟩
          simpa [walk] using hp3 rest
      · refine Or.inr ⟨true :: p, by simpa using hp1, by simp, fun rest => ?_⟩
        simpa [walk] using hp3 rest

theorem filldict_unweighted (t : Item) (code : List Bool) (lk1 lk2 : Dict)
    (h : ∀ s, (lk1 s).map Huffcode.code = (lk2 s).map Huffcode.code) (s : Byte) :
    (filldict t.unweighted code lk1 s).map Huffcode.code
      = (filldict t code lk2 s).map Huffcode.code := by
  induction t generalizing code lk1 lk2 s with
  | HNode f v =>
      simp only [filldict, Item.unweighted]
      cases ParseInt code with
      | none => exact h s
      | some res =>
          by_cases hs : s = v
          · subst hs; simp [Huffcode.code]
          · simp [Function.update_noteq hs, h s]
  | HTree f l r ihl ihr =>
      simp only [filldict, Item.unweighted]
      exact ihr _ _ _ (fun s2 => ihl _ _ _ h s2) s

theorem symbols_HTree (f : Nat) (l r : Item) :
    (Item.HTree f l r).symbols = l.symbols ++ r.symbols := by
  simp [Item.symbols, Item.leaves, List.map_map, Function.comp_def]

theorem mem_symbols_of_mem_leaves {t : Item} {e : List Bool × Nat × Byte} (h : e ∈ t.leaves) :
    e.2.2 ∈ t.symbols :=
  List.mem_map_of_mem _ h

theorem filldict_other (t : Item) (code : List Bool) (lkup : Dict) (s : Byte)
    (h : s ∉ t.symbols) : filldict t code lkup s = lkup s := by
  induction t generalizing code lkup with
  | HNode f v =>
      have hs : s ≠ v := by simpa [Item.symbols, Item.leaves] using h
      simp only [filldict]
      cases ParseInt code with
      | none => rfl
      | some res => simp [Function.update_noteq hs]
  | HTree f l r ihl ihr =>
      rw [symbols_HTree, List.mem_append, not_or] at h
      simp only [filldict]
      rw [ihr _ _ h.2, ihl _ _ h.1]

theorem filldict_leaf (t : Item) (code : List Bool) (lkup : Dict) (hnd : t.symbols.Nodup)
    (e : List Bool × Nat × Byte) (he : e ∈ t.leaves) :
    filldict t code lkup e.2.2 =
      match ParseInt (code ++ e.1) with
      | some res => some ⟨e.2.1, res, (code ++ e.1).length⟩
      | none => lkup e.2.2 := by
  induction t generalizing code lkup e with
  | HNode f v =>
      simp only [Item.leaves, List.mem_singleton] at he
      subst he
      simp only [filldict, List.append_nil]
      cases ParseInt code with
      | none => rfl
      | some res => simp
  | HTree f l r ihl ihr =>
      rw [symbols_HTree] at hnd
      have hl := (List.nodup_append.mp hnd).1
      have hr := (List.nodup_append.mp hnd).2.1
      have hd := (List.nodup_append.mp hnd).2.2
      simp only [Item.leaves, List.mem_append, List.mem_map] at he
      simp only [filldict]
      rcases he with ⟨e1, he1, rfl⟩ | ⟨e1, he1, rfl⟩
      · have hnot : e1.2.2 ∉ r.symbols := fun hm => hd (mem_symbols_of_mem_leaves he1) hm
        rw [filldict_other r _ _ _ hnot, ihl _ _ hl e1 he1]
        simp
      · have hnot : e1.2.2 ∉ l.symbols := fun hm => hd hm (mem_symbols_of_mem_leaves he1)
        rw [ihr _ _ hr e1 he1, filldict_other l _ _ _ hnot]
        simp

/-! ## Claims on the header and the code table -/

/-- C3 (header round trip): for every tree `t` and all trailing bits `rest`,
`ReadHeader` on the bits written by `WriteHeader` for `t` followed by `rest` returns,
without error, a tree of the same shape with the same symbols on the same leaves,
leaves exactly `rest` unread, and `filldict` derives the same code (bit pattern and bit
length) for every symbol from both trees. -/
theorem header_round_trip (t : Item) (d : Dict) (rest : List Bool) :
    ∃ t2,
      (NewHuffmanDecoder
          ((({ root := t, dict := d, bw := NewWriter } : HuffmanEncoder).WriteHeader).1.bw.bits
            ++ rest)).ReadHeader
        = .done ({ root := some t2, br := rest }, none) ∧
      t.sameShape t2 = true ∧
      ∀ s, (filldict t2 [] Dict.empty s).map Huffcode.code
        = (filldict t [] Dict.empty s).map Huffcode.code := by
  refine ⟨t.unweighted, ?_, sameShape_unweighted t, fun s => ?_⟩
  · rw [WriteHeader_eq]
    simpa [NewWriter] using ReadHeader_post t rest
  · exact filldict_unweighted t [] _ _ (fun _ => rfl) s

/-- C4 (prefix-free): in the table that `filldict` builds from any tree (in particular
the tree of either encoder constructor), the codes of two distinct symbols are never a
bit-prefix of one another. -/
theorem filldict_prefix_free (t : Item) (s1 s2 : Byte) (c1 c2 : Huffcode) (hne : s1 ≠ s2)
    (h1 : filldict t [] Dict.empty s1 = some c1) (h2 : filldict t [] Dict.empty s2 = some c2) :
    ¬ (c1.bits <+: c2.bits) ∧ ¬ (c2.bits <+: c1.bits) := by
  have key : ∀ (a b : Byte) (ca cb : Huffcode), filldict t [] Dict.empty a = some ca →
      filldict t [] Dict.empty b = some cb → ca.bits <+: cb.bits → a = b := by
    intro a b ca cb ha hb hpre
    rcases filldict_sound t [] _ a ca ha with h | ⟨pa, hpa, -, hwa⟩
    · simp [Dict.empty] at h
    rcases filldict_sound t [] _ b cb hb with h | ⟨pb, hpb, -, hwb⟩
    · simp [Dict.empty] at h
    obtain ⟨q, hq⟩ := hpre
    rw [List.nil_append] at hpa hpb
    rw [hpa, hpb] at hq
    have e1 := hwa q
    have e2 := hwb []
    rw [List.append_nil, ← hq, e1] at e2
    simpa using (Prod.mk.inj e2).2
  exact ⟨fun h => hne (key s1 s2 c1 c2 h1 h2 h), fun h => hne (key s2 s1 c2 c1 h2 h1 h).symm⟩

/-- Witness for C4 on the tree built for the input `AAAAB`. -/
theorem filldict_prefix_free_witness :
    ¬ (Huffcode.bits ⟨4, 1, 1⟩ <+: Huffcode.bits ⟨1, 0, 1⟩) ∧
      ¬ (Huffcode.bits ⟨1, 0, 1⟩ <+: Huffcode.bits ⟨4, 1, 1⟩) :=
  filldict_prefix_free (.HTree 5 (.HNode 1 66) (.HNode 4 65)) 65 66 ⟨4, 1, 1⟩ ⟨1, 0, 1⟩
    (by decide) (by decide) (by decide)

/-- C5 as claimed fails: a root that is itself a leaf gets no entry at all (the code
string is empty and `ParseInt` rejects it), and a leaf whose path does not fit 31 bits
gets none either. -/
theorem filldict_single_leaf_no_entry :
    filldict (.HNode 3 65) [] Dict.empty 65 = none ∧
      (rightComb 32).symbols.Nodup ∧ 0 ∈ (rightComb 32).symbols ∧
      filldict (rightComb 32) [] Dict.empty 0 = none := by
  refine ⟨by decide, by decide, by decide, by decide⟩

/-- C5 (amended): for every tree whose leaves carry pairwise distinct symbols, the table
built by `filldict` holds, for each leaf whose root-to-leaf path is non-empty and reads
as a binary number below `2^31` (every leaf at depth 1 to 31 does), the entry with the
leaf's weight, `hcode` the path read as a binary number (left = 0, right = 1) and
`nbits` the number of edges of the path; it holds no entry for a symbol that is on no
leaf; and a root that is itself a leaf gets no entry. -/
theorem filldict_table (t : Item) (hnd : t.symbols.Nodup) :
    (∀ e ∈ t.leaves, e.1 ≠ [] → bitsToNat e.1 < 2 ^ 31 →
        filldict t [] Dict.empty e.2.2 = some ⟨e.2.1, bitsToNat e.1, e.1.length⟩) ∧
      (∀ e ∈ t.leaves, 1 ≤ e.1.length → e.1.length ≤ 31 →
        filldict t [] Dict.empty e.2.2 = some ⟨e.2.1, bitsToNat e.1, e.1.length⟩) ∧
      (∀ s, s ∉ t.symbols → filldict t [] Dict.empty s = none) ∧
      ∀ f v, t = .HNode f v → ∀ s, filldict t [] Dict.empty s = none := by
  have main : ∀ e ∈ t.leaves, e.1 ≠ [] → bitsToNat e.1 < 2 ^ 31 →
      filldict t [] Dict.empty e.2.2 = some ⟨e.2.1, bitsToNat e.1, e.1.length⟩ := by
    intro e he h0 h1
    rw [filldict_leaf t [] _ hnd e he]
    simp only [List.nil_append, ParseInt]
    rw [if_neg h0, if_pos h1]
  refine ⟨main, fun e he hlo hhi => ?_, fun s hs => ?_, fun f v ht s => ?_⟩
  · have h0 : e.1 ≠ [] := by
      intro h; rw [h] at hlo; simp at hlo
    have h1 : bitsToNat e.1 < 2 ^ 31 :=
      lt_of_lt_of_le (bitsToNat_lt e.1) (Nat.pow_le_pow_right (by norm_num) hhi)
    exact main e he h0 h1
  · rw [filldict_other t [] _ s hs]; rfl
  · subst ht
    simp [filldict, ParseInt, Dict.empty]

/-- Witness for C5 (amended) on the tree built for the input `AAAAB`. -/
theorem filldict_table_witness :
    (Item.HTree 5 (.HNode 1 66) (.HNode 4 65)).symbols.Nodup ∧
      filldict (.HTree 5 (.HNode 1 66) (.HNode 4 65)) [] Dict.empty 65 = some ⟨4, 1, 1⟩ :=
  ⟨by decide,
    ((filldict_table (.HTree 5 (.HNode 1 66) (.HNode 4 65)) (by decide)).2.1
      ([true], 4, 65) (by decide) (by decide) (by decide))⟩

/-- C6 (wire format of the header): `WriteHeader` appends to the bit sink exactly
`post t` for its tree `t` followed by one `0` bit, and returns no error, where `post`
of a leaf is the bit `1` and the 8 bits of the symbol, most significant first, and
`post` of an internal node is `post` of the left subtree, `post` of the right subtree
and the bit `0`. -/
theorem WriteHeader_wire_format (enc : HuffmanEncoder) :
    enc.WriteHeader
      = ({ enc with bw := ⟨enc.bw.bits ++ (post enc.root ++ [false])⟩ }, none) := by
  rw [WriteHeader_eq, List.append_assoc]

/-! ## Payload: `Write` -/

theorem Write_go_known (p : List Byte) (l : List Byte) (e : HuffmanEncoder)
    (h : ∀ v ∈ l, e.dict v ≠ none) :
    HuffmanEncoder.Write.go p e l
      = ({ e with bw := ⟨e.bw.bits ++ codewords e.dict l⟩ }, .done (p.length, none)) := by
  induction l generalizing e with
  | nil => simp [HuffmanEncoder.Write.go, codewords]
  | cons v l ih =>
      have hv := h v (List.mem_cons_self _ _)
      cases hd : e.dict v with
      | none => exact absurd hd hv
      | some c =>
          have hl : ∀ w ∈ l, e.dict w ≠ none := fun w hw => h w (List.mem_cons_of_mem _ hw)
          have hi := ih { e with bw := ⟨e.bw.bits ++ natBits c.nbits c.hcode⟩ } hl
          simp only [HuffmanEncoder.Write.go, hd, BitWriter.WriteBits]
          rw [hi]
          simp [codewords, codeword, hd, Huffcode.bits]

theorem Write_go_unknown (p : List Byte) (known : List Byte) (u : Byte) (rest : List Byte)
    (e : HuffmanEncoder) (h : ∀ v ∈ known, e.dict v ≠ none) (hu : e.dict u = none) :
    HuffmanEncoder.Write.go p e (known ++ u :: rest)
      = ({ e with bw := ⟨e.bw.bits ++ codewords e.dict known⟩ }, .panic (.nonExistentCode u)) := by
  induction known generalizing e with
  | nil => simp [HuffmanEncoder.Write.go, codewords, hu]
  | cons v l ih =>
      have hv := h v (List.mem_cons_self _ _)
      cases hd : e.dict v with
      | none => exact absurd hd hv
      | some c =>
          have hl : ∀ w ∈ l, e.dict w ≠ none := fun w hw => h w (List.mem_cons_of_mem _ hw)
          have hi := ih { e with bw := ⟨e.bw.bits ++ natBits c.nbits c.hcode⟩ } hl hu
          show HuffmanEncoder.Write.go p e (v :: (l ++ u :: rest)) = _
          simp only [HuffmanEncoder.Write.go, hd, BitWriter.WriteBits]
          rw [hi]
          simp [codewords, codeword, hd, Huffcode.bits]

theorem Write_known (enc : HuffmanEncoder) (p : List Byte) (h : ∀ v ∈ p, enc.dict v ≠ none) :
    enc.Write p
      = ({ enc with bw := ⟨enc.bw.bits ++ codewords enc.dict p⟩ }, .done (p.length, none)) :=
  Write_go_known p p enc h

theorem split_first_unknown (d : Dict) (p : List Byte) (h : ∃ v ∈ p, d v = none) :
    ∃ known u rest, p = known ++ u :: rest ∧ (∀ v ∈ known, d v ≠ none) ∧ d u = none := by
  induction p with
  | nil => simp at h
  | cons a p ih =>
      by_cases ha : d a = none
      · exact ⟨[], a, p, rfl, by simp, ha⟩
      · have h2 : ∃ v ∈ p, d v = none := by
          obtain ⟨v, hv, hd⟩ := h
          rcases List.mem_cons.mp hv with rfl | hv2
          · exact absurd hd ha
          · exact ⟨v, hv2, hd⟩
        obtain ⟨known, u, rest, hp, hk, hu⟩ := ih h2
        refine ⟨a :: known, u, rest, by simp [hp], ?_, hu⟩
        intro v hv
        rcases List.mem_cons.mp hv with rfl | hv2
        · exact ha
        · exact hk v hv2

/-- C7 (payload encoding): when every byte of `p` has an entry in the encoder's table,
`Write p` appends to the bit sink exactly the codewords of the bytes of `p` (the `nbits`
lowest bits of `hcode`, most significant first), in input order and with nothing in
between, changes nothing else, and returns `(len(p), nil)`. -/
theorem Write_payload (enc : HuffmanEncoder) (p : List Byte)
    (h : ∀ v ∈ p, enc.dict v ≠ none) :
    enc.Write p
      = ({ enc with bw := ⟨enc.bw.bits ++ codewords enc.dict p⟩ }, .done (p.length, none)) ∧
      ∀ v c, enc.dict v = some c → codeword enc.dict v = natBits c.nbits c.hcode := by
  refine ⟨Write_known enc p h, fun v c hc => ?_⟩
  simp [codeword, hc, Huffcode.bits]

set_option maxRecDepth 100000 in
/-- Witness for C7: the encoder for the ranked list `X, Y, Z` writes `X Z Y X`. -/
theorem Write_payload_witness :
    (({ root := treeXYZ, dict := filldict treeXYZ [] Dict.empty, bw := NewWriter } :
        HuffmanEncoder).Write [88, 90, 89, 88]).1.bw.bits
      = [true, false, false, false, true, true] := by
  have h := (Write_payload
    { root := treeXYZ, dict := filldict treeXYZ [] Dict.empty, bw := NewWriter }
    [88, 90, 89, 88] (by decide)).1
  rw [h]
  decide

/-- C8 (unknown symbol): for every encoder (in particular one built by
`NewHuffmanEncoderWithDict`), `Write p` fails, by the panic for a non-existent code, if
and only if some byte of `p` has no entry in the code table; without such a byte it
returns `(len(p), nil)`; and when it fails, the panic names the first byte without an
entry and the bit sink has received exactly the codewords of the bytes before it. -/
theorem Write_unknown_symbol (enc : HuffmanEncoder) (p : List Byte) :
    ((∃ g, (enc.Write p).2 = .panic g) ↔ ∃ v ∈ p, enc.dict v = none) ∧
      ((∀ v ∈ p, enc.dict v ≠ none) → (enc.Write p).2 = .done (p.length, none)) ∧
      ∀ known u rest, p = known ++ u :: rest → (∀ v ∈ known, enc.dict v ≠ none) →
        enc.dict u = none →
        enc.Write p = ({ enc with bw := ⟨enc.bw.bits ++ codewords enc.dict known⟩ },
          .panic (.nonExistentCode u)) := by
  have bad : ∀ known u rest, p = known ++ u :: rest → (∀ v ∈ known, enc.dict v ≠ none) →
      enc.dict u = none →
      enc.Write p = ({ enc with bw := ⟨enc.bw.bits ++ codewords enc.dict known⟩ },
        .panic (.nonExistentCode u)) := by
    intro known u rest hp hk hu
    have hgo := Write_go_unknown p known u rest enc hk hu
    rw [← hp] at hgo
    exact hgo
  refine ⟨⟨fun hfail => ?_, fun hex => ?_⟩, fun hk => by rw [Write_known enc p hk], bad⟩
  · by_contra hno
    have hk : ∀ v ∈ p, enc.dict v ≠ none := fun v hv hd => hno ⟨v, hv, hd⟩
    obtain ⟨g, hg⟩ := hfail
    rw [Write_known enc p hk] at hg
    cases hg
  · obtain ⟨known, u, rest, hp, hk, hu⟩ := split_first_unknown enc.dict p hex
    exact ⟨_, by rw [bad known u rest hp hk hu]⟩

set_option maxRecDepth 100000 in
/-- Witness for C8: the encoder built from the ranked list `X, Y, Z` is asked to write
`X A Y`; it panics on `A` after the codeword of `X` has been written. -/
theorem Write_unknown_symbol_witness :
    NewHuffmanEncoderWithDict [88, 89, 90]
        = .done { root := treeXYZ, dict := filldict treeXYZ [] Dict.empty, bw := NewWriter } ∧
      ({ root := treeXYZ, dict := filldict treeXYZ [] Dict.empty, bw := NewWriter } :
          HuffmanEncoder).Write [88, 65, 89]
        = ({ root := treeXYZ, dict := filldict treeXYZ [] Dict.empty, bw := ⟨[true]⟩ },
            .panic (.nonExistentCode 65)) :=
  ⟨rfl, (Write_unknown_symbol
      { root := treeXYZ, dict := filldict treeXYZ [] Dict.empty, bw := NewWriter }
      [88, 65, 89]).2.2 [88] 65 [89] rfl (by decide) (by decide)⟩

/-! ## Decoder: `Read` -/

theorem take_succ_set (l : List Byte) (i : Nat) (v : Byte) (h : i < l.length) :
    (l.set i v).take (i + 1) = l.take i ++ [v] := by
  induction l generalizing i with
  | nil => simp at h
  | cons a l ih =>
      cases i with
      | zero => simp
      | succ j =>
          simp only [List.set_cons_succ, List.take_succ_cons, List.cons_append]
          rw [ih j (by simpa using h)]

theorem drop_set_gt (l : List Byte) (i j : Nat) (v : Byte) (h : i < j) :
    (l.set i v).drop j = l.drop j := by
  induction l generalizing i j with
  | nil => simp
  | cons a l ih =>
      cases j with
      | zero => omega
      | succ k =>
          cases i with
          | zero => simp
          | succ m => simp only [List.set_cons_succ, List.drop_succ_cons]; exact ih m k (by omega)

theorem decodeN_length (t : Item) (n : Nat) (br : BitReader) (syms : List Byte)
    (tail : BitReader) (h : decodeN t n br = some (syms, tail)) : syms.length = n := by
  induction n generalizing br syms with
  | zero => simp [decodeN] at h; simp [h.1.symm]
  | succ n ih =>
      simp only [decodeN] at h
      rcases hw : walk t br with ⟨br1, _ | v⟩
      · rw [hw] at h; simp at h
      · rw [hw] at h
        simp only [Option.map_eq_some'] at h
        obtain ⟨⟨s1, t1⟩, h1, h2⟩ := h
        simp only [Prod.mk.injEq] at h2
        rw [← h2.1, List.length_cons, ih _ _ (by rw [h1, h2.2])]

theorem readLoop_decode (t : Item) (n : Nat) :
    ∀ (i k : Nat) (br : BitReader) (buff syms : List Byte) (tail : BitReader),
      decodeN t n br = some (syms, tail) → i + n ≤ buff.length →
      readLoop (some t) (n + k) i br buff
        = readLoop (some t) k (i + n) tail (buff.take i ++ syms ++ buff.drop (i + n)) := by
  induction n with
  | zero =>
      intro i k br buff syms tail h _
      simp only [decodeN, Option.some.injEq, Prod.mk.injEq] at h
      simp [← h.1, ← h.2]
  | succ n ih =>
      intro i k br buff syms tail h hle
      simp only [decodeN] at h
      rcases hw : walk t br with ⟨br1, _ | v⟩
      · rw [hw] at h; simp at h
      · rw [hw] at h
        simp only [Option.map_eq_some'] at h
        obtain ⟨⟨s1, t1⟩, h1, h2⟩ := h
        simp only [Prod.mk.injEq] at h2
        obtain ⟨rfl, rfl⟩ := h2
        have e1 : n + 1 + k = (n + k) + 1 := by omega
        rw [e1]
        simp only [readLoop, readNextSymbol, hw]
        rw [ih (i + 1) k br1 (buff.set i v) s1 t1 h1 (by simp; omega)]
        rw [take_succ_set buff i v (by omega), drop_set_gt buff i (i + 1 + n) v (by omega)]
        have e2 : i + 1 + n = i + (n + 1) := by omega
        rw [e2]
        simp

theorem walk_error (t : Item) (br br1 : BitReader) (e : GoError)
    (h : walk t br = (br1, .error e)) : br1 = [] ∧ e = .EOF := by
  induction br generalizing t with
  | nil =>
      cases t with
      | HNode f v => simp [walk] at h
      | HTree f l r => simp [walk] at h; exact ⟨h.1, h.2.symm⟩
  | cons b br ih =>
      cases t with
      | HNode f v => simp [walk] at h
      | HTree f l r => simp only [walk] at h; exact ih _ h

/-- When `i` symbols are decoded and the next walk runs out of bits, `Read` on a longer
buffer stops there: it returns `len(buff) - i` and `io.EOF`. -/
theorem Read_stop (t : Item) (i : Nat) (br : BitReader) (buff syms : List Byte)
    (tail br1 : BitReader) (e : GoError) (hdec : decodeN t i br = some (syms, tail))
    (hw : walk t tail = (br1, .error e)) (hi : i < buff.length) :
    HuffmanDecoder.Read { root := some t, br := br } buff
      = ({ root := some t, br := [] }, syms ++ buff.drop i, buff.length - i, some .EOF) := by
  obtain ⟨rfl, rfl⟩ := walk_error t tail br1 e hw
  have hlen := decodeN_length t i br syms tail hdec
  obtain ⟨k, hk⟩ : ∃ k, buff.length = i + (k + 1) := ⟨buff.length - i - 1, by omega⟩
  have h := readLoop_decode t i 0 (k + 1) br buff syms tail hdec (by omega)
  simp only [HuffmanDecoder.Read, hk, h]
  simp only [readLoop, readNextSymbol, hw, Nat.zero_add, List.take_zero, List.nil_append,
    List.length_append, List.length_drop, hlen, hk]
  have e3 : i + (i + (k + 1) - i) - i = i + (k + 1) - i := by omega
  rw [e3]

/-- C9 as claimed fails: with the tree of `AAAAB`, the two bits `1 0` and a buffer of 5
bytes, the source ends at a symbol boundary after 2 symbols, and `Read` returns the
count 3 and the error `io.EOF`, not the count 2 and no error. With a root that is a
leaf, `Read` never consults the source and returns a full buffer and no error. -/
theorem Read_clean_end_counterexample :
    decodeN treeAB 2 [true, false] = some ([65, 66], []) ∧
      (HuffmanDecoder.Read { root := some treeAB, br := [true, false] } [0, 0, 0, 0, 0]).2
        = ([65, 66, 0, 0, 0], 3, some .EOF) ∧
      ¬ ((HuffmanDecoder.Read { root := some treeAB, br := [true, false] }
            [0, 0, 0, 0, 0]).2.2 = (2, none)) ∧
      decodeN (.HNode 1 65) 1 [] = some ([65], []) ∧
      (HuffmanDecoder.Read { root := some (.HNode 1 65), br := [] } [0, 0, 0]).2
        = ([65, 65, 65], 3, none) := by
  refine ⟨by decide, by decide, by decide, by decide, by decide⟩

/-- C9 (amended): for a decoder whose tree has an internal node as root and for every
buffer, if the bit source is exhausted exactly at a symbol boundary after `i` symbols
(`i < len(buff)`), then `Read` returns the end-of-stream value `io.EOF` as its error,
the buffer holds those `i` symbols in `buff[0..i)` with the rest of it untouched, and
the source is left empty. -/
theorem Read_clean_end (f : Nat) (l r : Item) (i : Nat) (br : BitReader)
    (buff syms : List Byte) (hdec : decodeN (.HTree f l r) i br = some (syms, []))
    (hi : i < buff.length) :
    (HuffmanDecoder.Read { root := some (.HTree f l r), br := br } buff).2.2.2 = some .EOF ∧
      (HuffmanDecoder.Read { root := some (.HTree f l r), br := br } buff).2.1
        = syms ++ buff.drop i ∧
      ((HuffmanDecoder.Read { root := some (.HTree f l r), br := br } buff).2.1).take i = syms ∧
      (HuffmanDecoder.Read { root := some (.HTree f l r), br := br } buff).1.br = [] := by
  have h := Read_stop (.HTree f l r) i br buff syms [] [] .EOF hdec (by simp [walk]) hi
  have hlen := decodeN_length _ i br syms [] hdec
  rw [h]
  refine ⟨rfl, rfl, ?_, rfl⟩
  simp [← hlen]

/-- Witness for C9 (amended): the tree of `AAAAB`, the bits `1 0`, a buffer of 5 bytes. -/
theorem Read_clean_end_witness :
    (HuffmanDecoder.Read { root := some treeAB, br := [true, false] }
        [0, 0, 0, 0, 0]).2.2.2 = some .EOF :=
  (Read_clean_end 5 (.HNode 1 66) (.HNode 4 65) 2 [true, false] [0, 0, 0, 0, 0] [65, 66]
    (by decide) (by decide)).1

/-- C10 as claimed fails: with the tree of the ranked list `X, Y, Z` and a buffer of 3
bytes, the source `1 0` ends inside the second codeword and the source `1` ends between
two symbols; `Read` returns the same count, the same error `io.EOF` and the same buffer
for both. -/
theorem Read_truncated_counterexample :
    walk treeXYZ [false] = ([], .error .EOF) ∧
      (HuffmanDecoder.Read { root := some treeXYZ, br := [true, false] } [0, 0, 0]).2
        = ([88, 0, 0], 2, some .EOF) ∧
      (HuffmanDecoder.Read { root := some treeXYZ, br := [true] } [0, 0, 0]).2
        = ([88, 0, 0], 2, some .EOF) := by
  refine ⟨rfl, by decide, by decide⟩

/-- C10 (amended): if the bit source is exhausted after at least one bit of a codeword
has been consumed but before a leaf is reached, `Read` returns the error `io.EOF` with
the symbols decoded before in `buff[0..i)`, and its whole outcome (decoder left behind,
buffer, count, error) is the same as the outcome of `Read` on a source that ends exactly
between two symbols after the same `i` symbols. -/
theorem Read_truncated (t : Item) (i : Nat) (br br0 : BitReader) (buff syms : List Byte)
    (part br1 : BitReader) (e : GoError)
    (hdec : decodeN t i br = some (syms, part)) (_hpart : part ≠ [])
    (hw : walk t part = (br1, .error e))
    (hclean : decodeN t i br0 = some (syms, [])) (hi : i < buff.length) :
    (HuffmanDecoder.Read { root := some t, br := br } buff).2.2.2 = some .EOF ∧
      (HuffmanDecoder.Read { root := some t, br := br } buff).2.1 = syms ++ buff.drop i ∧
      HuffmanDecoder.Read { root := some t, br := br } buff
        = HuffmanDecoder.Read { root := some t, br := br0 } buff := by
  have h := Read_stop t i br buff syms part br1 e hdec hw hi
  have hw0 : walk t [] = ([], .error .EOF) := by
    cases t with
    | HNode f v => cases part <;> simp [walk] at hw
    | HTree f l r => simp [walk]
  have h0 := Read_stop t i br0 buff syms [] [] .EOF hclean hw0 hi
  rw [h, h0]
  exact ⟨rfl, rfl, rfl⟩

/-- Witness for C10 (amended): the tree of the ranked list `X, Y, Z`, the source `1 0`
against the source `1`. -/
theorem Read_truncated_witness :
    HuffmanDecoder.Read { root := some treeXYZ, br := [true, false] } [0, 0, 0]
      = HuffmanDecoder.Read { root := some treeXYZ, br := [true] } [0, 0, 0] :=
  (Read_truncated treeXYZ 1 [true, false] [true] [0, 0, 0] [88] [false] [] .EOF
    (by decide) (by decide) rfl (by decide) (by decide)).2.2

/-! ## Round trip -/

theorem walk_length_le (t : Item) (br br1 : BitReader) (v : Byte)
    (h : walk t br = (br1, .ok v)) : br1.length ≤ br.length := by
  induction br generalizing t with
  | nil =>
      cases t with
      | HNode f w => simp [walk] at h; simp [← h.1]
      | HTree f l r => simp [walk] at h
  | cons b br ih =>
      cases t with
      | HNode f w => simp [walk] at h; simp [← h.1]
      | HTree f l r =>
          simp only [walk] at h
          have := ih _ h
          simp only [List.length_cons]
          omega

theorem walk_HTree_length_lt (f : Nat) (l r : Item) (br br1 : BitReader) (v : Byte)
    (h : walk (.HTree f l r) br = (br1, .ok v)) : br1.length < br.length := by
  cases br with
  | nil => simp [walk] at h
  | cons b br =>
      simp only [walk] at h
      have := walk_length_le _ _ _ _ h
      simp only [List.length_cons]
      omega

theorem decodeAll_unweighted (t : Item) (fuel : Nat) (br : BitReader) :
    decodeAll (some t.unweighted) fuel br = decodeAll (some t) fuel br := by
  induction fuel generalizing br with
  | zero => rfl
  | succ n ih => simp only [decodeAll, readNextSymbol, walk_unweighted, ih]

theorem decodeAll_total (f : Nat) (l r : Item) :
    ∀ (fuel : Nat) (br : BitReader), br.length < fuel →
      ∃ out, decodeAll (some (.HTree f l r)) fuel br = some out ∧ out.length ≤ br.length := by
  intro fuel
  induction fuel with
  | zero => intro br h; omega
  | succ n ih =>
      intro br h
      simp only [decodeAll, readNextSymbol]
      rcases hw : walk (.HTree f l r) br with ⟨br1, e | v⟩
      · exact ⟨[], rfl, by simp⟩
      · have hlt := walk_HTree_length_lt f l r br br1 v hw
        obtain ⟨out, ho, hl⟩ := ih br1 (by omega)
        refine ⟨v :: out, by simp [ho], ?_⟩
        simp only [List.length_cons]
        omega

theorem codeword_walk (t : Item) (v : Byte) (c : Huffcode)
    (h : filldict t [] Dict.empty v = some c) :
    c.bits ≠ [] ∧ ∀ rest, walk t (c.bits ++ rest) = (rest, .ok v) := by
  rcases filldict_sound t [] _ v c h with h0 | ⟨p, hp1, hp2, hp3⟩
  · simp [Dict.empty] at h0
  · rw [List.nil_append] at hp1 hp2
    rw [hp1]
    exact ⟨hp2, hp3⟩

theorem decodeAll_codewords (f : Nat) (l r : Item) (data : List Byte) (tail : BitReader)
    (hk : ∀ v ∈ data, filldict (.HTree f l r) [] Dict.empty v ≠ none) :
    ∀ fuel, (codewords (filldict (.HTree f l r) [] Dict.empty) data ++ tail).length < fuel →
      ∃ extra, decodeAll (some (.HTree f l r)) fuel
          (codewords (filldict (.HTree f l r) [] Dict.empty) data ++ tail)
            = some (data ++ extra) ∧ extra.length ≤ tail.length := by
  induction data with
  | nil =>
      intro fuel h
      simpa [codewords] using decodeAll_total f l r fuel tail (by simpa [codewords] using h)
  | cons v data ih =>
      intro fuel h
      have hv := hk v (List.mem_cons_self _ _)
      cases hd : filldict (.HTree f l r) [] Dict.empty v with
      | none => exact absurd hd hv
      | some c =>
          obtain ⟨hne, hwalk⟩ := codeword_walk _ v c hd
          have hcw : codeword (filldict (.HTree f l r) [] Dict.empty) v = c.bits := by
            simp [codeword, hd]
          have hpos : 0 < c.bits.length := List.length_pos.mpr hne
          simp only [codewords, hcw, List.append_assoc, List.length_append] at h ⊢
          cases fuel with
          | zero => omega
          | succ n =>
              obtain ⟨extra, he, hl⟩ :=
                ih (fun w hw => hk w (List.mem_cons_of_mem _ hw)) n
                  (by simp only [List.length_append]; omega)
              refine ⟨extra, ?_, hl⟩
              simp only [decodeAll, readNextSymbol, hwalk, he]
              rfl

theorem Flush_bits (bw : BitWriter) :
    ∃ k, k ≤ 7 ∧ (bw.Flush false).1.bits = bw.bits ++ List.replicate k false ∧
      (bw.Flush false).1.output = bw.bits ++ List.replicate k false := by
  refine ⟨(8 - bw.bits.length % 8) % 8, by omega, rfl, ?_⟩
  simp only [BitWriter.output, BitWriter.Flush]
  apply List.take_of_length_le
  simp only [List.length_append, List.length_replicate]
  omega

theorem Run_bind_done {α β : Type} (x : Run α) (g : α → Run β) (b : β)
    (h : x.bind g = .done b) : ∃ a, x = .done a ∧ g a = .done b := by
  cases x with
  | done a => exact ⟨a, rfl, h⟩
  | panic p => simp [Run.bind] at h
  | outOfFuel => simp [Run.bind] at h

theorem buildEncoder_done (pQ : PriorityQueue) (enc : HuffmanEncoder)
    (h : buildEncoder pQ = .done enc) :
    ∃ f l r, enc.root = .HTree f l r ∧ enc.dict = filldict (.HTree f l r) [] Dict.empty ∧
      enc.bw = NewWriter := by
  unfold buildEncoder at h
  obtain ⟨q, _, h1⟩ := Run_bind_done _ _ _ h
  obtain ⟨htree, _, h2⟩ := Run_bind_done _ _ _ h1
  cases ht : htree.1 with
  | HNode f v => rw [ht] at h2; simp at h2
  | HTree f l r =>
      rw [ht] at h2
      simp only [Run.done.injEq] at h2
      exact ⟨f, l, r, by rw [← h2], by rw [← h2], by rw [← h2]⟩

/-- The whole pipeline for an encoder with an internal root and a fresh bit sink. -/
theorem pipeline (f : Nat) (l r : Item) (data : List Byte)
    (hk : ∀ v ∈ data, filldict (.HTree f l r) [] Dict.empty v ≠ none) :
    ∃ extra,
      decodeSymbols
        (((({ root := .HTree f l r, dict := filldict (.HTree f l r) [] Dict.empty,
              bw := NewWriter } : HuffmanEncoder).WriteHeader).1.Write data).1.Flush).1.bw.output
        = .done (some (data ++ extra)) ∧ extra.length ≤ 7 := by
  rw [WriteHeader_eq, Write_known _ _ hk]
  simp only [HuffmanEncoder.Flush, NewWriter, List.nil_append]
  obtain ⟨k, hk7, -, hout⟩ :=
    Flush_bits ⟨post (.HTree f l r) ++ [false]
      ++ codewords (filldict (.HTree f l r) [] Dict.empty) data⟩
  rw [hout]
  simp only [decodeSymbols, List.append_assoc]
  have hrh := ReadHeader_post (.HTree f l r)
    (codewords (filldict (.HTree f l r) [] Dict.empty) data ++ List.replicate k false)
  simp only [List.append_assoc] at hrh
  rw [hrh]
  simp only [Run.bind, decodeAll_unweighted]
  obtain ⟨extra, he, hl⟩ := decodeAll_codewords f l r data (List.replicate k false) hk
    ((codewords (filldict (.HTree f l r) [] Dict.empty) data
      ++ List.replicate k false).length + 1) (by omega)
  refine ⟨extra, by rw [he], ?_⟩
  simp only [List.length_replicate] at hl
  omega

/-! ## The constructors return an encoder -/

theorem Swap_length (pq : PriorityQueue) (i j : Nat) : (pq.Swap i j).length = pq.length := by
  simp [PriorityQueue.Swap]

theorem heapUp_length (fuel : Nat) (h : PriorityQueue) (j : Nat) :
    (heapUp fuel h j).length = h.length := by
  induction fuel generalizing h j with
  | zero => rfl
  | succ n ih =>
      simp only [heapUp]
      split
      · rfl
      · rw [ih, Swap_length]

theorem heapDown_length (fuel : Nat) (h : PriorityQueue) (i n : Nat) :
    (heapDown fuel h i n).length = h.length := by
  induction fuel generalizing h i with
  | zero => rfl
  | succ m ih =>
      simp only [heapDown]
      split_ifs <;> first | rfl | (rw [ih, Swap_length])

theorem foldl_heapDown_length (idx : List Nat) (q : PriorityQueue) (m n : Nat) :
    (idx.foldl (fun q i => heapDown m q i n) q).length = q.length := by
  induction idx generalizing q with
  | nil => rfl
  | cons i idx ih => rw [List.foldl_cons, ih, heapDown_length]

theorem heapInit_length (h : PriorityQueue) : (heapInit h).length = h.length :=
  foldl_heapDown_length _ h _ _

theorem heapPush_length (h : PriorityQueue) (x : Item) :
    (heapPush h x).length = h.length + 1 := by
  simp [heapPush, heapUp_length, PriorityQueue.Push]

theorem heapPush_nil (x : Item) : heapPush [] x = [x] := by
  simp [heapPush, heapUp, PriorityQueue.Push]

theorem Pop_nonempty (pq : PriorityQueue) (h : 1 ≤ pq.length) :
    ∃ item, pq.Pop = .done (item, pq.dropLast) := by
  cases hl : pq.getLast? with
  | none =>
      rw [List.getLast?_eq_none_iff] at hl
      rw [hl] at h; simp at h
  | some item => exact ⟨item, by simp [PriorityQueue.Pop, hl]⟩

theorem mergeLoop_single (fuel : Nat) (x : Item) : mergeLoop fuel [x] = .done [x] := by
  cases fuel <;> simp [mergeLoop]

theorem mergeLoop_total (fuel : Nat) :
    ∀ pQ : PriorityQueue, 2 ≤ pQ.length → pQ.length ≤ fuel + 1 →
      ∃ f l r, mergeLoop fuel pQ = .done [.HTree f l r] := by
  induction fuel with
  | zero => intro pQ h2 hf; omega
  | succ n ih =>
      intro pQ h2 hf
      obtain ⟨zero, hz⟩ := Pop_nonempty pQ (by omega)
      obtain ⟨one, ho⟩ := Pop_nonempty pQ.dropLast (by simp; omega)
      have hgt : pQ.length > 1 := by omega
      simp only [mergeLoop, if_pos hgt, hz, ho, Run.bind]
      by_cases h3 : pQ.length = 2
      · have hnil : pQ.dropLast.dropLast = [] := by
          apply List.eq_nil_of_length_eq_zero
          simp [h3]
        rw [hnil, heapPush_nil, mergeLoop_single]
        exact ⟨_, _, _, rfl⟩
      · apply ih
        · rw [heapPush_length]; simp; omega
        · rw [heapPush_length]; simp; omega

theorem buildEncoder_total (pQ : PriorityQueue) (h2 : 2 ≤ pQ.length) :
    ∃ enc, buildEncoder pQ = .done enc := by
  obtain ⟨f, l, r, hm⟩ :=
    mergeLoop_total pQ.length (heapInit pQ) (by rw [heapInit_length]; exact h2)
      (by rw [heapInit_length]; omega)
  exact ⟨⟨.HTree f l r, filldict (.HTree f l r) [] Dict.empty, NewWriter⟩,
    by simp [buildEncoder, hm, Run.bind, PriorityQueue.Pop]⟩

/-! ## The counting loop on the reader of the test -/

theorem countLoop_plain (s : List Byte) :
    ∀ (b : Byte) (freq : FreqMap),
      ∃ r, countLoop (s.map fun v => { byte := some v, err := none }) b freq = .done r ∧
        ∀ v, (r v).getD 0 = (freq v).getD 0 + s.count v := by
  induction s with
  | nil => intro b freq; exact ⟨freq, rfl, fun v => by simp⟩
  | cons a s ih =>
      intro b freq
      simp only [List.map_cons, countLoop, Option.getD_some]
      cases hf : freq a with
      | none =>
          obtain ⟨r, hr, hv⟩ := ih a (Function.update freq a (some (0 + 1)))
          refine ⟨r, hr, fun v => ?_⟩
          rw [hv v]
          by_cases h : v = a
          · subst h; simp [hf]; omega
          · have h2 : a ≠ v := fun e => h e.symm
            simp [Function.update_noteq h, List.count_cons, h2]
      | some c =>
          obtain ⟨r, hr, hv⟩ := ih a (Function.update freq a (some (c + 1)))
          refine ⟨r, hr, fun v => ?_⟩
          rw [hv v]
          by_cases h : v = a
          · subst h; simp [hf]; omega
          · have h2 : a ≠ v := fun e => h e.symm
            simp [Function.update_noteq h, List.count_cons, h2]

/-- On the reader of the test the counts are the numbers of occurrences. -/
theorem NewHuffmanEncoder_NewReader (data order : List Byte) :
    NewHuffmanEncoder (NewReader data) order
      = buildEncoder (order.map fun v => NewHNode v (data.count v)) := by
  obtain ⟨r, hr, hv⟩ := countLoop_plain data 0 (fun _ => none)
  simp only [NewHuffmanEncoder, NewReader, hr, Run.bind]
  congr 1
  apply List.map_congr_left
  intro v _
  rw [hv v]
  simp

theorem NewHuffmanEncoder_done (inp : ReadSeeker) (order : List Byte) (enc : HuffmanEncoder)
    (h : NewHuffmanEncoder inp order = .done enc) :
    ∃ f l r, enc = ⟨.HTree f l r, filldict (.HTree f l r) [] Dict.empty, NewWriter⟩ := by
  unfold NewHuffmanEncoder at h
  obtain ⟨freq, _, h1⟩ := Run_bind_done _ _ _ h
  cases hs : inp.seek with
  | some e => rw [hs] at h1; simp at h1
  | none =>
      rw [hs] at h1
      obtain ⟨f, l, r, hr, hd, hb⟩ := buildEncoder_done _ enc h1
      refine ⟨f, l, r, ?_⟩
      cases enc
      simp only at hr hd hb
      rw [hr, hd, hb]

theorem compress_done (inp : ReadSeeker) (order data : List Byte) (f : Nat) (l r : Item)
    (henc : NewHuffmanEncoder inp order
      = .done ⟨.HTree f l r, filldict (.HTree f l r) [] Dict.empty, NewWriter⟩)
    (hk : ∀ v ∈ data, filldict (.HTree f l r) [] Dict.empty v ≠ none) :
    compress inp order data = .done
      ((((⟨.HTree f l r, filldict (.HTree f l r) [] Dict.empty, NewWriter⟩ :
        HuffmanEncoder).WriteHeader).1.Write data).1.Flush).1.bw.output := by
  have hk2 : ∀ v ∈ data,
      ((⟨.HTree f l r, filldict (.HTree f l r) [] Dict.empty, NewWriter⟩ :
        HuffmanEncoder).WriteHeader).1.dict v ≠ none := by
    rw [WriteHeader_eq]; exact hk
  unfold compress
  rw [henc]
  simp only [Run.bind]
  rw [Write_known _ data hk2]

/-! ## Claims on the round trip -/

set_option maxRecDepth 1000000 in
/-- C1 as claimed fails: for the input `AAAAB`, read through the reader of the test (in
either iteration order of the frequency map), decoding symbols until the bit source is
exhausted yields `AAAAB` followed by seven `B`, one for each pad bit of `Flush`, so not
a sequence equal to the input; and for the non-empty input `A` the constructor panics. -/
theorem round_trip_counterexample :
    (compress (NewReader [65, 65, 65, 65, 66]) [65, 66] [65, 65, 65, 65, 66]).bind
        decodeSymbols
        = .done (some [65, 65, 65, 65, 66, 66, 66, 66, 66, 66, 66, 66]) ∧
      (compress (NewReader [65, 65, 65, 65, 66]) [66, 65] [65, 65, 65, 65, 66]).bind
        decodeSymbols
        = .done (some [65, 65, 65, 65, 66, 66, 66, 66, 66, 66, 66, 66]) ∧
      (compress (NewReader [65, 65, 65, 65, 66]) [65, 66] [65, 65, 65, 65, 66]).bind
        decodeSymbols
        ≠ .done (some [65, 65, 65, 65, 66]) ∧
      compress (NewReader [65]) [65] [65] = .panic .huffmanTree := by
  refine ⟨by decide, by decide, by decide, by decide⟩

/-- C1 (amended): for every byte sequence `data` with at least two distinct byte values,
handed to the constructor by a reader that returns every byte with a nil error and
`io.EOF` alone after the last byte (`strings.NewReader`, the reader of the test), and
for every order in which the frequency map is iterated, `NewHuffmanEncoder` returns an
encoder, and when every byte of `data` has an entry in its code table, then
`WriteHeader`, `Write(data)`, `Flush`, followed by `NewHuffmanDecoder`, `ReadHeader` and
decoding symbols until the bit source is exhausted, yields `data` followed by at most 7
further symbols (those decoded from the pad bits of `Flush`). -/
theorem round_trip_with_trailing (data order : List Byte) (hord : order.Perm data.dedup)
    (h2 : 2 ≤ data.dedup.length) :
    ∃ enc, NewHuffmanEncoder (NewReader data) order = .done enc ∧
      ((∀ v ∈ data, enc.dict v ≠ none) →
        ∃ extra, (compress (NewReader data) order data).bind decodeSymbols
            = .done (some (data ++ extra)) ∧
          extra.length ≤ 7) := by
  have hlen : 2 ≤ (order.map fun v => NewHNode v (data.count v)).length := by
    rw [List.length_map, hord.length_eq]; exact h2
  obtain ⟨enc, hb⟩ := buildEncoder_total _ hlen
  have henc : NewHuffmanEncoder (NewReader data) order = .done enc := by
    rw [NewHuffmanEncoder_NewReader]; exact hb
  refine ⟨enc, henc, fun hk => ?_⟩
  obtain ⟨f, l, r, he⟩ := NewHuffmanEncoder_done _ _ _ henc
  subst he
  obtain ⟨extra, hx, h7⟩ := pipeline f l r data hk
  refine ⟨extra, ?_, h7⟩
  rw [compress_done _ _ _ f l r henc hk]
  exact hx

set_option maxRecDepth 1000000 in
/-- Witness for C1 (amended): the input `AAAAB`. -/
theorem round_trip_with_trailing_witness :
    ∃ extra, (compress (NewReader [65, 65, 65, 65, 66]) [65, 66] [65, 65, 65, 65, 66]).bind
        decodeSymbols
        = .done (some ([65, 65, 65, 65, 66] ++ extra)) ∧ extra.length ≤ 7 := by
  obtain ⟨enc, henc, h⟩ :=
    round_trip_with_trailing [65, 65, 65, 65, 66] [65, 66] (by decide) (by decide)
  have he : NewHuffmanEncoder (NewReader [65, 65, 65, 65, 66]) [65, 66]
      = .done { root := treeAB, dict := filldict treeAB [] Dict.empty, bw := NewWriter } := rfl
  rw [he] at henc
  cases henc
  exact h (by decide)

set_option maxRecDepth 10000000 in
set_option maxHeartbeats 40000000 in
/-- C2 at its failing input: the input `AAAAAAB` is compressed and read back through
`Read` with a buffer of 16 bytes. The stream decodes to 12 symbols (`AAAAAAB` and five
`B` from the pad bits), `Read` stores them and returns the count `16 - 12 = 4`, so the
caller keeps the 4 bytes `AAAA`: fewer than the 7 bytes of the input. Likewise, read
back with a buffer of 512 bytes, an input of 299 `A` and one `B` comes back as
`512 - 300 = 212` bytes. -/
theorem prefix_round_trip_short_read :
    (compress (NewReader [65, 65, 65, 65, 65, 65, 66]) [65, 66]
          [65, 65, 65, 65, 65, 65, 66]).bind (decompress 16)
        = .done (some [65, 65, 65, 65]) ∧
      (compress (NewReader [65, 65, 65, 65, 65, 65, 66]) [66, 65]
          [65, 65, 65, 65, 65, 65, 66]).bind (decompress 16)
        = .done (some [65, 65, 65, 65]) ∧
      (compress (NewReader [65, 65, 65, 65, 65, 65, 66]) [65, 66]
          [65, 65, 65, 65, 65, 65, 66]).bind decodeSymbols
        = .done (some [65, 65, 65, 65, 65, 65, 66, 66, 66, 66, 66, 66]) ∧
      (List.replicate 299 (65 : Byte) ++ [66]).length = 300 ∧
      ((compress (NewReader (List.replicate 299 65 ++ [66])) [65, 66]
          (List.replicate 299 65 ++ [66])).bind (decompress 512)).map
          (Option.map List.length) = .done (some 212) := by
  refine ⟨by decide, by decide, by decide, by decide, by decide⟩

set_option maxRecDepth 1000000 in
set_option maxHeartbeats 4000000 in
/-- The condition of the amended C1 that every byte has an entry is not idle: for an
input of 504 bytes over 52 byte values, visited in the order `0, ..., 51`, the tree is
32 deep, the code of the byte 51 does not fit 31 bits, `filldict` leaves it out and
`Write` panics on the first byte. -/
theorem deep_tree_unknown_symbol :
    deepData.length = 504 ∧ deepOrder.Perm deepData.dedup ∧
      compress (NewReader deepData) deepOrder deepData = .panic (.nonExistentCode 51) := by
  refine ⟨by decide, by decide, by decide⟩

/-! ## Degenerate inputs of the constructors -/

theorem buildEncoder_leaf (f : Nat) (v : Byte) :
    buildEncoder [.HNode f v] = .panic .huffmanTree := by
  simp [buildEncoder, heapInit, mergeLoop, Run.bind, PriorityQueue.Pop]

theorem buildEncoder_nil : buildEncoder [] = .panic .indexOutOfRange := by
  simp [buildEncoder, heapInit, mergeLoop, Run.bind, PriorityQueue.Pop]

theorem dedup_one_value (data : List Byte) (v : Byte) (hne : data ≠ [])
    (hall : ∀ x ∈ data, x = v) : data.dedup = [v] := by
  have hmem : ∀ x ∈ data.dedup, x = v := fun x hx => hall x (List.mem_dedup.mp hx)
  have hnd : data.dedup.Nodup := List.nodup_dedup data
  have hv : v ∈ data.dedup := by
    cases data with
    | nil => exact absurd rfl hne
    | cons a t =>
        have ha : a = v := hall a (List.mem_cons_self _ _)
        rw [List.mem_dedup, ← ha]
        exact List.mem_cons_self _ _
  generalize data.dedup = d at hmem hnd hv
  match d, hmem, hnd, hv with
  | [], _, _, hv => simp at hv
  | [a], hmem, _, _ => rw [hmem a (List.mem_cons_self _ _)]
  | a :: b :: t, hmem, hnd, _ =>
      have ha : a = v := hmem a (by simp)
      have hb : b = v := hmem b (by simp)
      rw [ha, hb] at hnd
      simp at hnd

/-- C11 as claimed fails: for the input `AAA`, read through the reader of the test, the
constructor returns no encoder, it panics with `"Huffman Tree"`. -/
theorem degenerate_alphabet_counterexample :
    NewHuffmanEncoder (NewReader [65, 65, 65]) [65] = .panic .huffmanTree ∧
      ¬ ∃ enc, NewHuffmanEncoder (NewReader [65, 65, 65]) [65] = .done enc := by
  have h : NewHuffmanEncoder (NewReader [65, 65, 65]) [65] = .panic .huffmanTree := rfl
  refine ⟨h, ?_⟩
  rintro ⟨enc, he⟩
  rw [h] at he
  cases he

/-- C11 (amended): for every non-empty input consisting of one repeated byte value,
handed to the constructor by a reader that returns every byte with a nil error and
`io.EOF` alone after the last byte (`strings.NewReader`, the reader of the test),
`NewHuffmanEncoder` returns no encoder: the merge loop does not run, the one node left
in the queue is a leaf, and the constructor panics with `"Huffman Tree"`; nothing is
encoded. -/
theorem NewHuffmanEncoder_one_symbol (data order : List Byte) (v : Byte) (hne : data ≠ [])
    (hall : ∀ x ∈ data, x = v) (hord : order.Perm data.dedup) :
    NewHuffmanEncoder (NewReader data) order = .panic .huffmanTree := by
  rw [dedup_one_value data v hne hall, List.perm_singleton] at hord
  subst hord
  rw [NewHuffmanEncoder_NewReader]
  simp [NewHNode, buildEncoder_leaf]

set_option maxRecDepth 100000 in
/-- Witness for C11 (amended): the input `AAA`. -/
theorem NewHuffmanEncoder_one_symbol_witness :
    NewHuffmanEncoder (NewReader [65, 65, 65]) [65] = .panic .huffmanTree :=
  NewHuffmanEncoder_one_symbol [65, 65, 65] [65] 65 (by decide) (by decide) (by decide)

/-- C12 at its failing input: on empty data and on an empty ranked list the constructors
reach `pQ.Pop()` with an empty queue and stop with the run-time panic for an index out
of range, the panic that `Pop` gives on any empty queue; no failure that names the
empty alphabet is raised, and the guard `panic("Huffman Tree")` is not reached. -/
theorem empty_alphabet_index_panic :
    NewHuffmanEncoder (NewReader []) [] = .panic .indexOutOfRange ∧
      NewHuffmanEncoderWithDict [] = .panic .indexOutOfRange ∧
      PriorityQueue.Pop [] = .panic .indexOutOfRange := by
  refine ⟨?_, ?_, rfl⟩
  · rw [NewHuffmanEncoder_NewReader]
    simp [buildEncoder_nil]
  · simp [NewHuffmanEncoderWithDict, buildEncoder_nil]

/-! ## Merge order -/

theorem Pop_append (pq : PriorityQueue) (x : Item) :
    PriorityQueue.Pop (pq ++ [x]) = .done (x, pq) := by
  simp [PriorityQueue.Pop]

set_option maxRecDepth 1000000 in
/-- C13 at its failing input: for the frequencies X:5, Y:3, Z:1 the queue after
`heap.Init` is `[X, Y, Z]`, the first `pQ.Pop()` returns `Z` (weight 1, the last slice
element, while the maximum is 5) and the second returns `Y`; the first merge is
`Z, Y` (weight 4) and the second merges that node (left) with `X` (right). In every
order of the initial queue the first merge is of `Z` and `Y`, never of `X` and `Y`. The
ranked list `X, Y, Z` gives the same shape. -/
theorem merge_order_XYZ :
    heapInit [.HNode 5 88, .HNode 3 89, .HNode 1 90] = [.HNode 5 88, .HNode 3 89, .HNode 1 90] ∧
      PriorityQueue.Pop [.HNode 5 88, .HNode 3 89, .HNode 1 90]
        = .done (.HNode 1 90, [.HNode 5 88, .HNode 3 89]) ∧
      PriorityQueue.Pop [.HNode 5 88, .HNode 3 89] = .done (.HNode 3 89, [.HNode 5 88]) ∧
      (NewHuffmanEncoder (NewReader dataXYZ) [88, 89, 90]).map (fun e => e.root)
        = .done (.HTree 9 (.HTree 4 (.HNode 1 90) (.HNode 3 89)) (.HNode 5 88)) ∧
      (∀ order ∈ [[88, 89, 90], [88, 90, 89], [89, 88, 90], [89, 90, 88], [90, 88, 89],
          [90, 89, 88]],
        (NewHuffmanEncoder (NewReader dataXYZ) order).map (fun e => e.root)
            = .done (.HTree 9 (.HTree 4 (.HNode 1 90) (.HNode 3 89)) (.HNode 5 88)) ∨
          (NewHuffmanEncoder (NewReader dataXYZ) order).map (fun e => e.root)
            = .done (.HTree 9 (.HTree 4 (.HNode 3 89) (.HNode 1 90)) (.HNode 5 88))) ∧
      (NewHuffmanEncoderWithDict [88, 89, 90]).map (fun e => e.root)
        = .done (.HTree 6 (.HTree 3 (.HNode 1 90) (.HNode 2 89)) (.HNode 3 88)) := by
  refine ⟨by decide, by decide, by decide, by decide, by decide, by decide⟩

/-! ## The scenario `AAAAB` -/

set_option maxRecDepth 1000000 in
/-- C15 as claimed fails: for the input `AAAAB`, read through the reader of the test,
the output is 32 bits long, the five payload bits are followed by 7 pad bits, not 3 (the
20 header bits share the first bytes with the payload), and decoding until the bit
source is exhausted does not reproduce exactly `AAAAB`. -/
theorem scenario_AAAAB_counterexample :
    compress (NewReader dataAB) [66, 65] dataAB
        ≠ .done (post treeAB ++ [false] ++ [true, true, true, true, false]
            ++ List.replicate 3 false) ∧
      compress (NewReader dataAB) [65, 66] dataAB
        ≠ .done (post treeAB ++ [false] ++ [true, true, true, true, false]
            ++ List.replicate 3 false) ∧
      (compress (NewReader dataAB) [65, 66] dataAB).map List.length = .done 32 ∧
      (compress (NewReader dataAB) [65, 66] dataAB).bind decodeSymbols
        ≠ .done (some dataAB) := by
  refine ⟨by decide, by decide, by decide, by decide⟩

set_option maxRecDepth 1000000 in
/-- C15 (amended): for the input `AAAAB` (A:4, B:1, in either order of the frequency
map), handed to the constructor by `strings.NewReader` as in the test (every byte comes
with a nil error, `io.EOF` alone after the last byte), the built tree has two leaves,
`B` gets the code `0` and `A` the code `1`, both of length 1; the output of
`WriteHeader`, `Write("AAAAB")`, `Flush` is the 20 header bits, the five payload bits
`1 1 1 1 0` and exactly 7 zero pad bits (32 bits, 4 bytes);
`ReadHeader` followed by one `Read` into a buffer of 5 bytes gives `AAAAB`, count 5 and
no error, and decoding until the bit source is exhausted gives `AAAAB` followed by
seven `B`. -/
theorem scenario_AAAAB :
    (∀ order ∈ [[65, 66], [66, 65]],
        (NewHuffmanEncoder (NewReader dataAB) order).map (fun e => e.root) = .done treeAB ∧
        (NewHuffmanEncoder (NewReader dataAB) order).map (fun e => (e.dict 65, e.dict 66))
          = .done (some ⟨4, 1, 1⟩, some ⟨1, 0, 1⟩) ∧
        compress (NewReader dataAB) order dataAB
          = .done (post treeAB ++ [false] ++ [true, true, true, true, false]
              ++ List.replicate 7 false) ∧
        (compress (NewReader dataAB) order dataAB).bind decodeSymbols
          = .done (some (dataAB ++ List.replicate 7 66))) ∧
      treeAB.leaves.length = 2 ∧
      (post treeAB ++ [false]).length = 20 ∧
      (NewHuffmanDecoder (post treeAB ++ [false] ++ [true, true, true, true, false]
          ++ List.replicate 7 false)).ReadHeader
        = .done ({ root := some treeAB.unweighted,
                   br := [true, true, true, true, false] ++ List.replicate 7 false }, none) ∧
      (HuffmanDecoder.Read { root := some treeAB.unweighted,
                             br := [true, true, true, true, false] ++ List.replicate 7 false }
          [0, 0, 0, 0, 0]).2 = (dataAB, 5, none) := by
  refine ⟨by decide, by decide, by decide, rfl, by decide⟩

/-! ## Code table against tree walk -/

/-- C18 (code table and tree walk agree): for every tree (in particular one with an
internal root and pairwise distinct symbols), every symbol `s` with an entry
`(hcode, nbits)` in the table built by `filldict` and all bits `rest`, `readNextSymbol`
on the `nbits` bits of `hcode`, most significant first, followed by `rest` returns `s`
and leaves exactly `rest`, so it consumes exactly `nbits` bits. -/
theorem table_walk_agree (t : Item) (s : Byte) (c : Huffcode) (rest : List Bool)
    (h : filldict t [] Dict.empty s = some c) :
    readNextSymbol (natBits c.nbits c.hcode ++ rest) (some t) = (rest, .ok s) ∧
      (natBits c.nbits c.hcode).length = c.nbits := by
  refine ⟨?_, natBits_length _ _⟩
  exact (codeword_walk t s c h).2 rest

/-- Witness for C18: the code `0 1` of `Y` in the tree of the ranked list `X, Y, Z`. -/
theorem table_walk_agree_witness :
    readNextSymbol (natBits 2 1 ++ [true, false]) (some treeXYZ) = ([true, false], .ok 89) :=
  (table_walk_agree treeXYZ 89 ⟨2, 1, 2⟩ [true, false] (by decide)).1

/-! ## Totality of the header loader -/

theorem rloaddict_total (br : BitReader) :
    ∀ lifo : List Item, lifo ≠ [] → ∃ r, rloaddict br lifo = .done r := by
  induction br using Nat.strongRecMeasure List.length with
  | ind br ih =>
      intro lifo hne
      rw [rloaddict_step]
      cases br with
      | nil => exact ⟨_, rfl⟩
      | cons b br =>
          cases b with
          | false =>
              simp only [ReadBit]
              split
              · exact ih br (by simp) _ (by simp)
              · cases lifo with
                | nil => exact absurd rfl hne
                | cons x t => exact ⟨_, rfl⟩
          | true =>
              simp only [ReadBit]
              rcases br with _ | ⟨b7, _ | ⟨b6, _ | ⟨b5, _ | ⟨b4, _ | ⟨b3, _ | ⟨b2, _ | ⟨b1,
                _ | ⟨b0, br⟩⟩⟩⟩⟩⟩⟩⟩
              all_goals first
                | exact ⟨_, rfl⟩
                | (simp only [ReadBits8]; exact ih br (by simp; omega) _ (by simp))

/-- C20 at its failing input: on every bit sequence whose first bit is `0`,
`ReadHeader` (and `rloaddict` with an empty stack) neither returns a tree nor an error:
the stack is empty, `lifo[0]` is out of bounds and the call panics. On every other bit
sequence a result is returned. -/
theorem ReadHeader_leading_zero (rest : List Bool) :
    rloaddict (false :: rest) [] = .panic .indexOutOfRange ∧
      (NewHuffmanDecoder (false :: rest)).ReadHeader = .panic .indexOutOfRange ∧
      (NewHuffmanDecoder []).ReadHeader = .done ({ root := none, br := [] }, some .EOF) ∧
      ∀ br, ∃ r, (NewHuffmanDecoder (true :: br)).ReadHeader = .done r := by
  have h0 : rloaddict (false :: rest) [] = .panic .indexOutOfRange := by
    rw [rloaddict_zero]; rfl
  refine ⟨h0, ?_, rfl, fun br => ?_⟩
  · simp [HuffmanDecoder.ReadHeader, NewHuffmanDecoder, h0, Run.bind]
  · simp only [HuffmanDecoder.ReadHeader, NewHuffmanDecoder]
    rw [rloaddict_step]
    simp only [ReadBit]
    rcases br with _ | ⟨b7, _ | ⟨b6, _ | ⟨b5, _ | ⟨b4, _ | ⟨b3, _ | ⟨b2, _ | ⟨b1,
      _ | ⟨b0, br⟩⟩⟩⟩⟩⟩⟩⟩
    all_goals first
      | exact ⟨_, rfl⟩
      | (simp only [ReadBits8]
         obtain ⟨r, hr⟩ := rloaddict_total br
           ([] ++ [.HNode 0 (Fin.ofNat (bitsToNat [b7, b6, b5, b4, b3, b2, b1, b0]))]) (by simp)
         rw [hr]
         rcases r with ⟨b, e | t⟩ <;> exact ⟨_, rfl⟩)

/-! ## Iterative and recursive loader -/

theorem symstack_Pop_append (s : symstack) (x : Item) :
    symstack.Pop (s ++ [x]) = .done (x, s) := by
  simp [symstack.Pop]

theorem snoc_cases (l : List Item) : l = [] ∨ ∃ s t, l = s ++ [t] := by
  rcases List.eq_nil_or_concat l with h0 | ⟨s, t, h1⟩
  · exact Or.inl h0
  · exact Or.inr ⟨s, t, by rw [h1, List.concat_eq_append]⟩

theorem two_last (l : List Item) (h : 2 ≤ l.length) : ∃ s a b, l = s ++ [a, b] := by
  rcases List.eq_nil_or_concat l with h0 | ⟨l1, b, h1⟩
  · rw [h0] at h; simp at h
  · rcases List.eq_nil_or_concat l1 with h2 | ⟨s, a, h3⟩
    · rw [h1, h2] at h; simp at h
    · exact ⟨s, a, b, by rw [h1, h3]; simp⟩

theorem loaddictLoop_zero (br : BitReader) (stack : symstack) :
    loaddictLoop (false :: br) stack =
      if stack.Len < 2 then
        (stack.Pop).bind fun p => .done (br, .ok p.1)
      else
        match stack.Pop with
        | .done (r, s1) =>
            (match s1.Pop with
            | .done (l, s2) => loaddictLoop br (s2.Push (.HTree 0 l r))
            | .panic p => .panic p
            | .outOfFuel => .outOfFuel)
        | .panic p => .panic p
        | .outOfFuel => .outOfFuel := by
  rw [loaddictLoop.eq_def]

theorem loaddictLoop_one (b7 b6 b5 b4 b3 b2 b1 b0 : Bool) (br : BitReader) (stack : symstack) :
    loaddictLoop (true :: b7 :: b6 :: b5 :: b4 :: b3 :: b2 :: b1 :: b0 :: br) stack =
      loaddictLoop br
        (stack.Push (.HNode 0 (Fin.ofNat (bitsToNat [b7, b6, b5, b4, b3, b2, b1, b0])))) := by
  rw [loaddictLoop.eq_def]

theorem loaddictLoop_eq (br : BitReader) :
    ∀ stack : symstack, loaddictLoop br stack = rloaddict br stack := by
  induction br using Nat.strongRecMeasure List.length with
  | ind br ih =>
      intro stack
      cases br with
      | nil => simp [loaddictLoop, rloaddict]
      | cons b br =>
          cases b with
          | false =>
              rw [loaddictLoop_zero, rloaddict_zero]
              by_cases h2 : 2 ≤ stack.length
              · obtain ⟨s, l, r, rfl⟩ := two_last stack h2
                obtain ⟨h1, h3, h4, h5⟩ := lifo_top s l r (.HNode 0 0)
                have hlen : ¬ symstack.Len (s ++ [l, r]) < 2 := by
                  simp [symstack.Len]
                have hp1 : symstack.Pop (s ++ [l, r]) = .done (r, s ++ [l]) := by
                  have := symstack_Pop_append (s ++ [l]) r
                  simpa using this
                rw [if_neg hlen, if_pos h1, h3, h4, h5, hp1]
                simp only [symstack_Pop_append, symstack.Push]
                exact ih br (by simp) _
              · have hlen : symstack.Len stack < 2 := by
                  simp only [symstack.Len]; omega
                have hgt : ¬ stack.length > 1 := by omega
                rw [if_pos hlen, if_neg hgt]
                match stack, h2 with
                | [], _ => rfl
                | [x], _ => rfl
                | _ :: _ :: _, h2 => simp at h2
          | true =>
              rcases br with _ | ⟨b7, _ | ⟨b6, _ | ⟨b5, _ | ⟨b4, _ | ⟨b3, _ | ⟨b2, _ | ⟨b1,
                _ | ⟨b0, br⟩⟩⟩⟩⟩⟩⟩⟩
              all_goals first
                | (simp [loaddictLoop, rloaddict]; done)
                | (rw [loaddictLoop_one, rloaddict_one]
                   exact ih br (by simp; omega) _)

/-- C17 (iterative and recursive loader agree): for every bit sequence `loaddict` and
`rloaddict` started with an empty stack give the same outcome: the same tree or the
same error, with the same bits left unread (so the same number of bits consumed), or
both panic on an empty stack. -/
theorem loaddict_eq_rloaddict (br : BitReader) : loaddict br = rloaddict br [] :=
  loaddictLoop_eq br []

/-! ## Iterative and recursive writer -/

theorem stackSize_append (s t : symstack) : stackSize (s ++ t) = stackSize s + stackSize t := by
  induction s with
  | nil => simp [stackSize]
  | cons a s ih => simp [stackSize, ih]; omega

theorem size_pos (t : Item) : 0 < t.size := by
  cases t <;> simp [Item.size]

theorem savedictFill_eq (fuel : Nat) :
    ∀ stack1 stack2 : symstack, stackSize stack1 ≤ fuel →
      savedictFill fuel stack1 stack2
        = .done (stack2 ++ (stack1.reverse.map Item.fillOrder).flatten) := by
  induction fuel with
  | zero =>
      intro stack1 stack2 h
      cases stack1 with
      | nil => simp [savedictFill, symstack.Len]
      | cons a s =>
          have := size_pos a
          simp [stackSize] at h
          omega
  | succ n ih =>
      intro stack1 stack2 h
      rcases snoc_cases stack1 with h0 | ⟨s, t, h1⟩
      · subst h0; simp [savedictFill, symstack.Len]
      · subst h1
        have hlen : symstack.Len (s ++ [t]) > 0 := by simp [symstack.Len]
        rw [stackSize_append] at h
        simp only [savedictFill, if_pos hlen, symstack_Pop_append, Run.bind]
        cases t with
        | HNode f v =>
            simp only [stackSize, Item.size] at h
            simp only [symstack.Push]
            rw [ih s _ (by omega)]
            simp [Item.fillOrder]
        | HTree f l r =>
            simp only [stackSize, Item.size] at h
            simp only [symstack.Push]
            rw [ih _ _ (by simp only [stackSize_append, stackSize]; omega)]
            simp [Item.fillOrder]

theorem savedictEmit_eq (fuel : Nat) :
    ∀ (stack2 : symstack) (bw : BitWriter), stack2.length ≤ fuel →
      savedictEmit fuel stack2 bw
        = .done (⟨bw.bits ++ (stack2.reverse.map nodeBits).flatten⟩, none) := by
  induction fuel with
  | zero =>
      intro stack2 bw h
      have h0 : stack2 = [] := List.eq_nil_of_length_eq_zero (by omega)
      subst h0
      simp [savedictEmit, symstack.Len]
  | succ n ih =>
      intro stack2 bw h
      rcases snoc_cases stack2 with h0 | ⟨s, t, h1⟩
      · subst h0; simp [savedictEmit, symstack.Len]
      · subst h1
        have hlen : symstack.Len (s ++ [t]) > 0 := by simp [symstack.Len]
        have hs : s.length ≤ n := by simp at h; omega
        simp only [savedictEmit, if_pos hlen, symstack_Pop_append, Run.bind]
        cases t with
        | HNode f v =>
            simp only [BitWriter.WriteBit, BitWriter.WriteByte]
            rw [ih s _ hs]
            simp [nodeBits]
        | HTree f l r =>
            simp only [BitWriter.WriteBit]
            rw [ih s _ hs]
            simp [nodeBits]

theorem fillOrder_bits (t : Item) : (t.fillOrder.reverse.map nodeBits).flatten = post t := by
  induction t with
  | HNode f v => simp [Item.fillOrder, nodeBits, post, natBits_eq_symbolBits]
  | HTree f l r ihl ihr =>
      simp only [Item.fillOrder, List.reverse_cons, List.reverse_append, List.map_append,
        List.flatten_append, ihl, ihr, post]
      simp [nodeBits]

theorem fillOrder_length (t : Item) : t.fillOrder.length = t.size := by
  induction t with
  | HNode f v => rfl
  | HTree f l r ihl ihr => simp [Item.fillOrder, Item.size, ihl, ihr]; omega

/-- C16 (iterative and recursive writer agree): for every tree whose root is an internal
node and every state of the bit sink, `savedict` returns, and it leaves the bit sink in
the same state as `rsavedict` with the same (nil) error: both append the same bits. -/
theorem savedict_eq_rsavedict (bw : BitWriter) (f : Nat) (l r : Item) :
    savedict bw (.HTree f l r) = .done (rsavedict bw (.HTree f l r)) := by
  have hfill := savedictFill_eq (Item.HTree f l r).size [.HTree f l r] []
    (by simp [stackSize])
  simp only [savedict, hfill, Run.bind, List.nil_append, List.reverse_singleton,
    List.map_singleton, List.flatten_singleton]
  rw [symstack.Len, savedictEmit_eq _ _ _ (le_refl _), fillOrder_bits, rsavedict_eq]

/-! ## Trailing symbols -/

theorem walk_zeros (t : Item) (br br1 : BitReader) (v : Byte) (hz : ∀ b ∈ br, b = false)
    (h : walk t br = (br1, .ok v)) : v = t.leftmost ∧ ∀ b ∈ br1, b = false := by
  induction br generalizing t with
  | nil =>
      cases t with
      | HNode f w =>
          simp only [walk, Prod.mk.injEq, Except.ok.injEq] at h
          exact ⟨h.2.symm, by rw [← h.1]; exact hz⟩
      | HTree f l r => simp [walk] at h
  | cons b br ih =>
      cases t with
      | HNode f w =>
          simp only [walk, Prod.mk.injEq, Except.ok.injEq] at h
          exact ⟨h.2.symm, by rw [← h.1]; exact hz⟩
      | HTree f l r =>
          have hb : b = false := hz b (List.mem_cons_self _ _)
          subst hb
          simp only [walk] at h
          exact ih l (fun c hc => hz c (List.mem_cons_of_mem _ hc)) h

theorem decodeAll_zeros (t : Item) (fuel : Nat) :
    ∀ (br : BitReader) (out : List Byte), (∀ b ∈ br, b = false) →
      decodeAll (some t) fuel br = some out → ∀ x ∈ out, x = t.leftmost := by
  induction fuel with
  | zero => intro br out _ h; simp [decodeAll] at h
  | succ n ih =>
      intro br out hz h
      simp only [decodeAll, readNextSymbol] at h
      rcases hw : walk t br with ⟨br1, e | v⟩
      · rw [hw] at h
        simp only [Option.some.injEq] at h
        subst h
        simp
      · rw [hw] at h
        simp only [Option.map_eq_some'] at h
        obtain ⟨out1, h1, rfl⟩ := h
        obtain ⟨hv, hz1⟩ := walk_zeros t br br1 v hz hw
        intro x hx
        rcases List.mem_cons.mp hx with rfl | hx1
        · exact hv
        · exact ih br1 out1 hz1 h1 x hx1

theorem decodeAll_codewords_tail (f : Nat) (l r : Item) (data : List Byte) (tail : BitReader)
    (hk : ∀ v ∈ data, filldict (.HTree f l r) [] Dict.empty v ≠ none) :
    ∀ fuel, (codewords (filldict (.HTree f l r) [] Dict.empty) data ++ tail).length < fuel →
      ∃ extra fuel2, decodeAll (some (.HTree f l r)) fuel
          (codewords (filldict (.HTree f l r) [] Dict.empty) data ++ tail)
            = some (data ++ extra) ∧ extra.length ≤ tail.length ∧
          decodeAll (some (.HTree f l r)) fuel2 tail = some extra := by
  induction data with
  | nil =>
      intro fuel h
      obtain ⟨out, ho, hl⟩ :=
        decodeAll_total f l r fuel tail (by simpa [codewords] using h)
      exact ⟨out, fuel, by simpa [codewords] using ho, hl, ho⟩
  | cons v data ih =>
      intro fuel h
      have hv := hk v (List.mem_cons_self _ _)
      cases hd : filldict (.HTree f l r) [] Dict.empty v with
      | none => exact absurd hd hv
      | some c =>
          obtain ⟨hne, hwalk⟩ := codeword_walk _ v c hd
          have hcw : codeword (filldict (.HTree f l r) [] Dict.empty) v = c.bits := by
            simp [codeword, hd]
          have hpos : 0 < c.bits.length := List.length_pos.mpr hne
          simp only [codewords, hcw, List.append_assoc, List.length_append] at h ⊢
          cases fuel with
          | zero => omega
          | succ n =>
              obtain ⟨extra, fuel2, he, hl, ht⟩ :=
                ih (fun w hw => hk w (List.mem_cons_of_mem _ hw)) n
                  (by simp only [List.length_append]; omega)
              refine ⟨extra, fuel2, ?_, hl, ht⟩
              simp only [decodeAll, readNextSymbol, hwalk, he]
              rfl

/-- The whole pipeline for an encoder with an internal root and a fresh bit sink, with
the origin of the trailing symbols. -/
theorem pipeline_leftmost (f : Nat) (l r : Item) (data : List Byte)
    (hk : ∀ v ∈ data, filldict (.HTree f l r) [] Dict.empty v ≠ none) :
    ∃ extra,
      decodeSymbols
        (((({ root := .HTree f l r, dict := filldict (.HTree f l r) [] Dict.empty,
              bw := NewWriter } : HuffmanEncoder).WriteHeader).1.Write data).1.Flush).1.bw.output
        = .done (some (data ++ extra)) ∧ extra.length ≤ 7 ∧
      ∀ x ∈ extra, x = (Item.HTree f l r).leftmost := by
  rw [WriteHeader_eq, Write_known _ _ hk]
  simp only [HuffmanEncoder.Flush, NewWriter, List.nil_append]
  obtain ⟨k, hk7, -, hout⟩ :=
    Flush_bits ⟨post (.HTree f l r) ++ [false]
      ++ codewords (filldict (.HTree f l r) [] Dict.empty) data⟩
  rw [hout]
  simp only [decodeSymbols, List.append_assoc]
  have hrh := ReadHeader_post (.HTree f l r)
    (codewords (filldict (.HTree f l r) [] Dict.empty) data ++ List.replicate k false)
  simp only [List.append_assoc] at hrh
  rw [hrh]
  simp only [Run.bind, decodeAll_unweighted]
  obtain ⟨extra, fuel2, he, hl, ht⟩ :=
    decodeAll_codewords_tail f l r data (List.replicate k false) hk
      ((codewords (filldict (.HTree f l r) [] Dict.empty) data
        ++ List.replicate k false).length + 1) (by omega)
  refine ⟨extra, by rw [he], ?_, ?_⟩
  · simp only [List.length_replicate] at hl
    omega
  · exact decodeAll_zeros _ fuel2 _ extra (fun b hb => (List.mem_replicate.mp hb).2) ht

/-- C19 (bounded trailing garbage): for every reader handed to the constructor, every
order in which the frequency map is iterated and every `data`: whenever
`NewHuffmanEncoder` returns an encoder and every byte of `data` has its code in the
table, decoding the flushed output of `WriteHeader`, `Write(data)`, `Flush` symbol by
symbol until the bit source is exhausted yields `data` followed by at most 7 extra
symbols, every one of them the symbol of the leaf reached from the root by left (`0`)
edges only. The encoder is returned for every `data` with at least two distinct byte
values that is read through `strings.NewReader`, the reader of the test. -/
theorem trailing_garbage_bounded (inp : ReadSeeker) (data order : List Byte) :
    (∀ enc, NewHuffmanEncoder inp order = .done enc → (∀ v ∈ data, enc.dict v ≠ none) →
        ∃ extra, (compress inp order data).bind decodeSymbols = .done (some (data ++ extra)) ∧
          extra.length ≤ 7 ∧ ∀ x ∈ extra, x = enc.root.leftmost) ∧
      (order.Perm data.dedup → 2 ≤ data.dedup.length →
        ∃ enc, NewHuffmanEncoder (NewReader data) order = .done enc) := by
  refine ⟨fun enc henc hk => ?_, fun hord h2 => ?_⟩
  · obtain ⟨f, l, r, he⟩ := NewHuffmanEncoder_done _ _ _ henc
    subst he
    obtain ⟨extra, hx, h7, hleft⟩ := pipeline_leftmost f l r data hk
    refine ⟨extra, ?_, h7, hleft⟩
    rw [compress_done _ _ _ f l r henc hk]
    exact hx
  · have hlen : 2 ≤ (order.map fun v => NewHNode v (data.count v)).length := by
      rw [List.length_map, hord.length_eq]; exact h2
    obtain ⟨enc, hb⟩ := buildEncoder_total _ hlen
    exact ⟨enc, by rw [NewHuffmanEncoder_NewReader]; exact hb⟩

set_option maxRecDepth 1000000 in
/-- Witness for C19: the input `AAAABB` read through a reader that returns the last byte
together with `io.EOF`; the encoder is built (with `B` counted once) and the tree has
the leaf `B` leftmost. And the input `AAAAB` read through the reader of the test, for
which the encoder is returned. -/
theorem trailing_garbage_bounded_witness :
    (NewHuffmanEncoder (NewReaderLastEOF [65, 65, 65, 65, 66, 66]) [65, 66]
        = .done { root := treeAB, dict := filldict treeAB [] Dict.empty, bw := NewWriter } ∧
      ∃ extra, (compress (NewReaderLastEOF [65, 65, 65, 65, 66, 66]) [65, 66]
            [65, 65, 65, 65, 66, 66]).bind decodeSymbols
          = .done (some ([65, 65, 65, 65, 66, 66] ++ extra)) ∧
        extra.length ≤ 7 ∧ ∀ x ∈ extra, x = 66) ∧
      ∃ enc, NewHuffmanEncoder (NewReader dataAB) [65, 66] = .done enc :=
  ⟨⟨rfl, (trailing_garbage_bounded (NewReaderLastEOF [65, 65, 65, 65, 66, 66])
    [65, 65, 65, 65, 66, 66] [65, 66]).1
      { root := treeAB, dict := filldict treeAB [] Dict.empty, bw := NewWriter } rfl
      (by decide)⟩,
    (trailing_garbage_bounded (NewReader dataAB) dataAB [65, 66]).2 (by decide) (by decide)⟩

/-! ## The builder keeps the leaves -/

theorem set_sum (g : Item → Multiset (Nat × Byte)) :
    ∀ (l : List Item) (i : Nat) (a d : Item), i < l.length →
      ((l.set i a).map g).sum + g (l.getD i d) = (l.map g).sum + g a
  | [], _, _, _, h => absurd h (Nat.not_lt_zero _)
  | x :: l, 0, a, d, _ => by
      simp only [List.set_cons_zero, List.map_cons, List.sum_cons, List.getD_cons_zero]
      abel
  | x :: l, k + 1, a, d, h => by
      have hk : k < l.length := Nat.lt_of_succ_lt_succ h
      simp only [List.set_cons_succ, List.map_cons, List.sum_cons, List.getD_cons_succ]
      rw [add_assoc, set_sum g l k a d hk, add_assoc]

theorem getD_set (l : List Item) (i j : Nat) (a d : Item) (h : i < l.length) :
    (l.set i a).getD j d = if i = j then a else l.getD j d := by
  simp only [List.getD_eq_getElem?_getD, List.getElem?_set]
  split
  · simp [h]
  · rfl

theorem forest_Swap (pq : PriorityQueue) (i j : Nat) (hi : i < pq.length) (hj : j < pq.length) :
    forest (pq.Swap i j) = forest pq := by
  unfold forest PriorityQueue.Swap PriorityQueue.at
  have h1 := set_sum (fun t => (t.weights : Multiset (Nat × Byte))) pq i
    (pq.getD j (.HNode 0 0)) (.HNode 0 0) hi
  have h2 := set_sum (fun t => (t.weights : Multiset (Nat × Byte)))
    (pq.set i (pq.getD j (.HNode 0 0))) j (pq.getD i (.HNode 0 0)) (.HNode 0 0)
    (by simpa using hj)
  rw [getD_set pq i j _ _ hi] at h2
  have h3 : (if i = j then pq.getD j (.HNode 0 0) else pq.getD j (.HNode 0 0))
      = pq.getD j (.HNode 0 0) := by split <;> rfl
  rw [h3, h1] at h2
  exact add_right_cancel h2

theorem forest_heapUp (fuel : Nat) (h : PriorityQueue) (j : Nat) (hj : j < h.length) :
    forest (heapUp fuel h j) = forest h := by
  induction fuel generalizing h j with
  | zero => rfl
  | succ n ih =>
      simp only [heapUp]
      split
      · rfl
      · have hi : (j - 1) / 2 < h.length := by omega
        rw [ih _ _ (by rw [Swap_length]; exact hi), forest_Swap h _ _ hi hj]

theorem forest_heapDown (fuel : Nat) (h : PriorityQueue) (i n : Nat) (hn : n ≤ h.length) :
    forest (heapDown fuel h i n) = forest h := by
  induction fuel generalizing h i with
  | zero => rfl
  | succ m ih =>
      simp only [heapDown]
      split_ifs with h1 h2 h3 h4
      all_goals first
        | rfl
        | rw [ih _ _ (by rw [Swap_length]; exact hn),
            forest_Swap h _ _ (by omega) (by omega)]

theorem forest_foldl_heapDown (idx : List Nat) (q : PriorityQueue) (m n : Nat)
    (hn : n ≤ q.length) :
    forest (idx.foldl (fun q i => heapDown m q i n) q) = forest q := by
  induction idx generalizing q with
  | nil => rfl
  | cons i idx ih =>
      rw [List.foldl_cons, ih _ (by rw [heapDown_length]; exact hn), forest_heapDown _ _ _ _ hn]

theorem forest_heapInit (h : PriorityQueue) : forest (heapInit h) = forest h :=
  forest_foldl_heapDown _ h _ _ (le_refl _)

theorem forest_append (a b : PriorityQueue) : forest (a ++ b) = forest a + forest b := by
  simp [forest]

theorem forest_single (x : Item) : forest [x] = (x.weights : Multiset (Nat × Byte)) := by
  simp [forest]

theorem forest_heapPush (h : PriorityQueue) (x : Item) :
    forest (heapPush h x) = forest h + (x.weights : Multiset (Nat × Byte)) := by
  unfold heapPush
  rw [forest_heapUp _ _ _ (by simp [PriorityQueue.Push]), PriorityQueue.Push, forest_append,
    forest_single]

theorem forest_Pop (pq rest : PriorityQueue) (item : Item) (h : pq.Pop = .done (item, rest)) :
    forest pq = forest rest + (item.weights : Multiset (Nat × Byte)) := by
  unfold PriorityQueue.Pop at h
  cases hl : pq.getLast? with
  | none => rw [hl] at h; simp at h
  | some x =>
      rw [hl] at h
      simp only [Run.done.injEq, Prod.mk.injEq] at h
      have := List.dropLast_append_getLast? x (by rw [hl]; rfl)
      rw [← this, forest_append, forest_single, h.1, h.2]

theorem weights_NewHTree (l r : Item) :
    ((NewHTree l r).weights : Multiset (Nat × Byte))
      = (l.weights : Multiset (Nat × Byte)) + (r.weights : Multiset (Nat × Byte)) := by
  simp [NewHTree, Item.weights, Item.leaves, List.map_map, Function.comp_def]

theorem forest_mergeLoop (fuel : Nat) :
    ∀ pQ q : PriorityQueue, mergeLoop fuel pQ = .done q → forest q = forest pQ := by
  induction fuel with
  | zero =>
      intro pQ q h
      simp only [mergeLoop] at h
      split at h
      · simp at h
      · simp only [Run.done.injEq] at h; rw [h]
  | succ n ih =>
      intro pQ q h
      simp only [mergeLoop] at h
      split at h
      · obtain ⟨zero, hz, h1⟩ := Run_bind_done _ _ _ h
        obtain ⟨one, ho, h2⟩ := Run_bind_done _ _ _ h1
        rw [ih _ _ h2, forest_heapPush, weights_NewHTree, forest_Pop pQ zero.2 zero.1 hz,
          forest_Pop zero.2 one.2 one.1 ho]
        abel
      · simp only [Run.done.injEq] at h; rw [h]

theorem forest_leaves (order : List Byte) (cnt : Byte → Nat) :
    forest (order.map fun v => NewHNode v (cnt v))
      = ((order.map fun v => (cnt v, v) : List (Nat × Byte)) : Multiset (Nat × Byte)) := by
  induction order with
  | nil => rfl
  | cons a order ih =>
      have h := forest_append [NewHNode a (cnt a)] (order.map fun v => NewHNode v (cnt v))
      simp only [List.singleton_append] at h
      rw [List.map_cons, h, ih, forest_single]
      simp [NewHNode, Item.weights, Item.leaves, Multiset.coe_add]

theorem buildEncoder_weights (pQ : PriorityQueue) (h2 : 2 ≤ pQ.length) :
    ∃ f l r, buildEncoder pQ
        = .done ⟨.HTree f l r, filldict (.HTree f l r) [] Dict.empty, NewWriter⟩ ∧
      ((Item.HTree f l r).weights : Multiset (Nat × Byte)) = forest pQ := by
  obtain ⟨f, l, r, hm⟩ :=
    mergeLoop_total pQ.length (heapInit pQ) (by rw [heapInit_length]; exact h2)
      (by rw [heapInit_length]; omega)
  refine ⟨f, l, r, by simp [buildEncoder, hm, Run.bind, PriorityQueue.Pop], ?_⟩
  have := forest_mergeLoop _ _ _ hm
  rw [forest_single, forest_heapInit] at this
  exact this

theorem size_leaves (t : Item) : t.size + 1 = 2 * t.leaves.length := by
  induction t with
  | HNode f v => rfl
  | HTree f l r ihl ihr => simp [Item.size, Item.leaves]; omega

/-- The builder on the reader of the test: for every input with at least two distinct
byte values, handed to the constructor by a reader that returns every byte with a nil
error and `io.EOF` alone after the last byte, and every order in which the frequency
entries are placed in the initial queue, `NewHuffmanEncoder` returns an encoder whose
tree has an internal root and as many nodes as a strictly binary tree has (twice the
number of leaves less one); its leaves, taken as pairs of weight and symbol, are exactly
the distinct byte values of the input, each on exactly one leaf, each with its number of
occurrences as weight. -/
theorem NewHuffmanEncoder_alphabet (data order : List Byte) (hord : order.Perm data.dedup)
    (h2 : 2 ≤ data.dedup.length) :
    ∃ enc f l r, NewHuffmanEncoder (NewReader data) order = .done enc ∧
      enc.root = .HTree f l r ∧
      enc.root.weights.Perm (data.dedup.map fun v => (data.count v, v)) ∧
      enc.root.symbols.Perm data.dedup ∧ enc.root.symbols.Nodup ∧
      (∀ v, v ∈ enc.root.symbols ↔ v ∈ data) ∧
      (∀ e ∈ enc.root.leaves, e.2.1 = data.count e.2.2) ∧
      enc.root.size + 1 = 2 * data.dedup.length := by
  have hlen : 2 ≤ (order.map fun v => NewHNode v (data.count v)).length := by
    rw [List.length_map, hord.length_eq]; exact h2
  obtain ⟨f, l, r, hb, hw⟩ := buildEncoder_weights _ hlen
  rw [forest_leaves, Multiset.coe_eq_coe] at hw
  have hp : (Item.HTree f l r).weights.Perm (data.dedup.map fun v => (data.count v, v)) :=
    hw.trans (hord.map _)
  have hs : (Item.HTree f l r).symbols.Perm data.dedup := by
    have := hp.map (fun e : Nat × Byte => e.2)
    simpa [Item.symbols, Item.weights, List.map_map, Function.comp_def] using this
  refine ⟨_, f, l, r, by rw [NewHuffmanEncoder_NewReader]; exact hb, rfl, hp, hs,
    hs.nodup_iff.mpr (List.nodup_dedup data),
    fun v => by rw [hs.mem_iff, List.mem_dedup], fun e he => ?_, ?_⟩
  · have hm : e.2 ∈ (Item.HTree f l r).weights := List.mem_map_of_mem _ he
    rw [hp.mem_iff, List.mem_map] at hm
    obtain ⟨v, _, hv⟩ := hm
    rw [← hv]
  · show (Item.HTree f l r).size + 1 = _
    rw [size_leaves, ← hs.length_eq]
    simp [Item.symbols]

set_option maxRecDepth 1000000 in
/-- The builder on the reader of the test at the input `XXXXXYYYZ`, with the queue
filled in the order `Z, X, Y`. -/
theorem NewHuffmanEncoder_alphabet_XYZ :
    ∃ enc f l r, NewHuffmanEncoder (NewReader dataXYZ) [90, 88, 89] = .done enc ∧
      enc.root = .HTree f l r ∧
      enc.root.weights.Perm (dataXYZ.dedup.map fun v => (dataXYZ.count v, v)) ∧
      enc.root.symbols.Perm dataXYZ.dedup ∧ enc.root.symbols.Nodup ∧
      (∀ v, v ∈ enc.root.symbols ↔ v ∈ dataXYZ) ∧
      (∀ e ∈ enc.root.leaves, e.2.1 = dataXYZ.count e.2.2) ∧
      enc.root.size + 1 = 2 * dataXYZ.dedup.length :=
  NewHuffmanEncoder_alphabet dataXYZ [90, 88, 89] (by decide) (by decide)

set_option maxRecDepth 1000000 in
/-- C14 at its failing input: the input `AAAABB`, which has two distinct byte values,
handed to the constructor by a reader that returns the last byte together with
`io.EOF`. The counting loop discards the count of `Read` and leaves the loop on
`io.EOF` before it counts the byte, so the tree is built (in either order of the
frequency map) with the leaf `B` of weight 1, while `B` occurs twice in the input. On
the same kind of reader the input `AAAAB` leaves `A` as the only key and the constructor
panics with `"Huffman Tree"`, and the input `AB` gives the same panic; a `Read` that
returns no byte and a nil error counts the byte that the buffer still holds, so the
bytes `A`, `B` with such a `Read` between them give `A` the weight 2. On
`strings.NewReader` the same input `AAAABB` gives `B` the weight 2. -/
theorem NewHuffmanEncoder_drops_last_byte :
    (∀ order ∈ [[65, 66], [66, 65]],
        (NewHuffmanEncoder (NewReaderLastEOF [65, 65, 65, 65, 66, 66]) order).map
            (fun e => e.root.weights)
          = .done [(1, 66), (4, 65)]) ∧
      List.count (66 : Byte) [65, 65, 65, 65, 66, 66] = 2 ∧
      NewHuffmanEncoder (NewReaderLastEOF [65, 65, 65, 65, 66]) [65] = .panic .huffmanTree ∧
      NewHuffmanEncoder (NewReaderLastEOF [65, 66]) [65] = .panic .huffmanTree ∧
      (NewHuffmanEncoder
          { reads := [⟨some 65, none⟩, ⟨none, none⟩, ⟨some 66, none⟩], seek := none }
          [65, 66]).map (fun e => e.root.weights)
        = .done [(1, 66), (2, 65)] ∧
      (∀ order ∈ [[65, 66], [66, 65]],
        (NewHuffmanEncoder (NewReader [65, 65, 65, 65, 66, 66]) order).map
            (fun e => e.root.weights)
          = .done [(2, 66), (4, 65)]) := by
  refine ⟨by decide, by decide, rfl, rfl, by decide, by decide⟩

end Huffman
